import Mathlib

/-!
Shallow embedding of the Edmonds–Karp maximum-flow program
(src/code.py, src/codeNew.py, src/codeFinal.py).

Capacity and residual tables are `List (List Int)`; reading an absent
entry yields the default `0`, matching the dense-table discipline of the
source.  The BFS queue, the parent array with `-1` sentinel, the
bottleneck computation and the residual updates follow the Python source
line by line.  Loops that Python writes as `while` are rendered with an
explicit fuel argument; fuel-sufficiency is proved where a claim needs
it.
-/

/-- Square integer table, as used for `capacity` and `residual`. -/
abbrev Mat := List (List Int)

/-- Read `r[u][v]`, defaulting to `0` out of range. -/
def getE (r : Mat) (u v : Nat) : Int := (r.getD u []).getD v 0

/-- Write `r[u][v] := x` (no-op out of range, as `List.set`). -/
def setE (r : Mat) (u v : Nat) (x : Int) : Mat :=
  r.set u ((r.getD u []).set v x)

/-- The table is an `n × n` matrix. -/
def WFMat (r : Mat) (n : Nat) : Prop :=
  r.length = n ∧ ∀ row ∈ r, row.length = n

/-- `residual = [row[:] for row in capacity]` (line 15 of code.py):
a fresh table whose rows are element-wise copies of the input rows. -/
def copyTable (c : Mat) : Mat := c.map (fun row => row.map (fun x => x))

/-- `parent = [-1] * n` followed by `parent[source] = source`
(lines 20–23 of code.py). -/
def initParent (n s : Nat) : List Int :=
  (List.replicate n (-1)).set s (Int.ofNat s)

/-- Inner loop of `bfs` (lines 26–31 of code.py): scan `v` upward from
`n - left`, marking unvisited `v` with `parent[v] = u` whenever
`residual[u][v] > 0`, collecting the enqueued nodes, and returning early
with `true` as soon as the sink is marked. -/
def scanAux (r : Mat) (sink u : Nat) : List Int → Nat → Nat → List Int × List Nat × Bool
  | parent, _, 0 => (parent, [], false)
  | parent, v, left+1 =>
    if parent.getD v (-1) = -1 ∧ 0 < getE r u v then
      let parent' := parent.set v (Int.ofNat u)
      if v = sink then (parent', [v], true)
      else
        let rest := scanAux r sink u parent' (v+1) left
        (rest.1, v :: rest.2.1, rest.2.2)
    else scanAux r sink u parent (v+1) left

/-- Outer `while queue` loop of `bfs` (lines 24–32 of code.py).
Each node is enqueued at most once, so `n*n + n + 2` units of fuel are
provably more than enough (`bfsLoop` never exhausts them). -/
def bfsLoop (r : Mat) (n sink : Nat) : Nat → List Int → List Nat → Bool × List Int
  | 0, parent, _ => (false, parent)
  | _+1, parent, [] => (false, parent)
  | fuel+1, parent, u :: rest =>
    let sc := scanAux r sink u parent 0 n
    if sc.2.2 then (true, sc.1)
    else bfsLoop r n sink fuel sc.1 (rest ++ sc.2.1)

/-- `bfs()` (lines 18–32 of code.py): breadth-first search for an
augmenting path over strictly positive residual edges; returns the
found flag together with the parent array it filled in. -/
def bfs (r : Mat) (n source sink : Nat) : Bool × List Int :=
  bfsLoop r n sink (n * n + n + 2) (initParent n source) [source]

/-- The `v = sink; while v != source: v = parent[v]` walk (lines 38–42
of code.py), materialised as the node list `[sink, …, source]`.
Returns `none` if it meets an unmarked node or runs out of fuel; the
BFS lemmas below show this never happens when `bfs` reported a path. -/
def walk (parent : List Int) (source : Nat) : Nat → Nat → Option (List Nat)
  | 0, v => if v = source then some [v] else none
  | fuel+1, v =>
    if v = source then some [v]
    else
      match parent.getD v (-1) with
      | Int.ofNat u => (walk parent source fuel u).map (fun q => v :: q)
      | Int.negSucc _ => none

/-- Consecutive pairs `(v, parent v)` of the extracted walk;
the pair `(a, b)` stands for the forward edge `b → a`. -/
def pathEdges (q : List Nat) : List (Nat × Nat) := q.zip q.tail

/-- Minimum of a list of integers (`path_flow = min(path_flow, …)`,
line 41 of code.py, with the first edge seeding the accumulator). -/
def minList : List Int → Int
  | [] => 0
  | x :: xs => xs.foldl min x

/-- Residual capacities read along the walk (line 41 of code.py). -/
def pathResiduals (r : Mat) (q : List Nat) : List Int :=
  (pathEdges q).map (fun e => getE r e.2 e.1)

/-- The bottleneck of the path (lines 37–42 of code.py). -/
def pathFlow (r : Mat) (q : List Nat) : Int := minList (pathResiduals r q)

/-- One update step `residual[u][v] -= f; residual[v][u] += f`
(lines 48–49 of code.py) for the walk pair `e = (v, u)`. -/
def applyStep (f : Int) (r : Mat) (e : Nat × Nat) : Mat :=
  let r1 := setE r e.2 e.1 (getE r e.2 e.1 - f)
  setE r1 e.1 e.2 (getE r1 e.1 e.2 + f)

/-- Apply the augmentation along a list of walk pairs. -/
def applyAugE (f : Int) (E : List (Nat × Nat)) (r : Mat) : Mat :=
  E.foldl (applyStep f) r

/-- The `while v != source` update loop (lines 45–50 of code.py). -/
def applyAug (r : Mat) (f : Int) (q : List Nat) : Mat :=
  applyAugE f (pathEdges q) r

/-- One iteration of the main `while bfs():` loop as a total step
function: if BFS finds a path, augment along it; otherwise leave the
state unchanged. -/
def ekStepFn (n s t : Nat) (st : Mat × Int) : Mat × Int :=
  let pr := bfs st.1 n s t
  if pr.1 then
    match walk pr.2 s n t with
    | some q => (applyAug st.1 (pathFlow st.1 q) q, st.2 + pathFlow st.1 q)
    | none => st
  else st

/-- The main `while bfs():` loop (lines 34–52 of code.py), with fuel.
Fuel-sufficiency for the fuel chosen in `edmonds_karp` is proved below
(`ekLoop` is stable under additional fuel). -/
def ekLoop (n s t : Nat) : Nat → Mat → Int → Mat × Int
  | 0, r, mf => (r, mf)
  | fuel+1, r, mf =>
    let pr := bfs r n s t
    if pr.1 then
      match walk pr.2 s n t with
      | some q => ekLoop n s t fuel (applyAug r (pathFlow r q) q) (mf + pathFlow r q)
      | none => (r, mf)
    else (r, mf)

/-- Sum of the positive parts of one row; every successful augmentation
removes at least one unit from row `source`, so this bounds the number
of loop iterations. -/
def rowFuel (row : List Int) : Nat := row.foldl (fun a x => a + x.toNat) 0

/-- Fuel for the main loop: one more than the total capacity leaving
the source. -/
def ekFuel (c : Mat) (s : Nat) : Nat := 1 + rowFuel (c.getD s [])

/-- `edmonds_karp(capacity, source, sink)` (lines 13–54 of code.py):
returns the final residual table and the maximum-flow value. -/
def edmonds_karp (capacity : Mat) (source sink : Nat) : Mat × Int :=
  let n := capacity.length
  let residual := copyTable capacity
  ekLoop n source sink (ekFuel capacity source) residual 0

/-- The call boundary of `edmonds_karp` with the caller's heap made
explicit: the first component is the caller's capacity table as it
stands after the call.  The source reads `capacity` only at line 15 to
build the `residual` copy and never writes to it, which this
state-passing rendering makes syntactic. -/
def edmonds_karpHeap (capacity : Mat) (source sink : Nat) : Mat × (Mat × Int) :=
  let n := capacity.length
  let residual := copyTable capacity
  (capacity, ekLoop n source sink (ekFuel capacity source) residual 0)

namespace codeNew

/-- `edmonds_karp` of src/codeNew.py (lines 15–60), textually identical
to the one in src/code.py. -/
def edmonds_karp (capacity : Mat) (source sink : Nat) : Mat × Int :=
  let n := capacity.length
  let residual := copyTable capacity
  ekLoop n source sink (ekFuel capacity source) residual 0

/-- `compute_forward_flow` of src/codeNew.py (lines 63–71): derived
flow `max(0, capacity[u][v] - residual[u][v])` on original edges,
clamped at zero. -/
def compute_forward_flow (capacity residual : Mat) : Mat :=
  let n := capacity.length
  (List.range n).map (fun u => (List.range n).map (fun v =>
    if 0 < getE capacity u v then max 0 (getE capacity u v - getE residual u v) else 0))

end codeNew

namespace codeFinal

/-- `edmonds_karp` of src/codeFinal.py (lines 16–56), textually
identical to the one in src/code.py. -/
def edmonds_karp (capacity : Mat) (source sink : Nat) : Mat × Int :=
  let n := capacity.length
  let residual := copyTable capacity
  ekLoop n source sink (ekFuel capacity source) residual 0

/-- `compute_forward_flow` of src/codeFinal.py (lines 62–71): derived
flow `capacity[u][v] - residual[u][v]` on original edges, not clamped. -/
def compute_forward_flow (capacity residual : Mat) : Mat :=
  let n := capacity.length
  (List.range n).map (fun u => (List.range n).map (fun v =>
    if 0 < getE capacity u v then getE capacity u v - getE residual u v else 0))

end codeFinal

/-- The chain of parent pointers from a node down to the source:
`Chain parent s v q` says that starting at `v` and repeatedly following
`parent` one reaches `s`, visiting exactly the nodes of `q`
(from `v` down to `s`).  This is the structure the `while v != source`
loops of code.py traverse. -/
inductive Chain (parent : List Int) (s : Nat) : Nat → List Nat → Prop where
  | base : Chain parent s s [s]
  | step {v u : Nat} {q : List Nat} :
      v ≠ s → parent.getD v (-1) = Int.ofNat u →
      Chain parent s u q → Chain parent s v (v :: q)

/-- Invariant of the parent array during one BFS (for `source < n`):
it has length `n`, the source is marked with itself, every mark
`parent[x] = u` for `x ≠ source` witnesses a strictly positive residual
edge `u → x`, and every marked node is connected to the source by a
chain of parent pointers. -/
def ParentInv (r : Mat) (n s : Nat) (p : List Int) : Prop :=
  p.length = n ∧ p.getD s (-1) = Int.ofNat s ∧
  (∀ x u, x ≠ s → p.getD x (-1) = Int.ofNat u → 0 < getE r u x) ∧
  (∀ x, p.getD x (-1) ≠ -1 → ∃ q, Chain p s x q)

/-- The example network of spec scenario 1 (lines 63–69 of code.py). -/
def exampleCapacity : Mat :=
  [[0, 16, 13, 0, 0],
   [0, 0, 10, 12, 4],
   [0, 4, 0, 0, 14],
   [0, 0, 9, 0, 20],
   [0, 0, 0, 0, 0]]

/-- The capacity table exactly as listed by spec scenario 1 (which,
unlike the example table in the source files, has no `v1 → t` edge). -/
def scenario1Capacity : Mat :=
  [[0, 16, 13, 0, 0],
   [0, 0, 10, 12, 0],
   [0, 4, 0, 0, 14],
   [0, 0, 9, 0, 20],
   [0, 0, 0, 0, 0]]

/-- Total residual capacity entering node `w` on the first `n` rows. -/
def colSum (r : Mat) (n w : Nat) : Int := ∑ u ∈ Finset.range n, getE r u w

/-- Total residual capacity leaving node `w` on the first `n` columns. -/
def rowSum (r : Mat) (n w : Nat) : Int := ∑ v ∈ Finset.range n, getE r w v

/-- Total positive residual capacity leaving the source; this strictly
decreases with every augmentation and therefore bounds the number of
main-loop iterations. -/
def srcMeasure (r : Mat) (n s : Nat) : Nat := ∑ v ∈ Finset.range n, (getE r s v).toNat

/-! ### Basic lemmas about table access -/

lemma getD_eq_of_lt {α : Type} {l : List α} {i : Nat} (h : i < l.length) (d : α) :
    l.getD i d = l[i] := by
  simp [List.getD_eq_getElem?_getD, List.getElem?_eq_getElem h]

lemma getD_eq_of_le {α : Type} {l : List α} {i : Nat} (h : l.length ≤ i) (d : α) :
    l.getD i d = d := by
  simp [List.getD_eq_getElem?_getD, List.getElem?_eq_none h]

lemma length_setE (r : Mat) (a b : Nat) (x : Int) :
    (setE r a b x).length = r.length := List.length_set ..

lemma row_length {r : Mat} {n : Nat} (hWF : WFMat r n) {a : Nat} (ha : a < n) :
    (r.getD a []).length = n := by
  have halen : a < r.length := by rw [hWF.1]; exact ha
  rw [getD_eq_of_lt halen]
  exact hWF.2 _ (r.getElem_mem halen)

lemma WFMat_setE {r : Mat} {n : Nat} (hWF : WFMat r n) (a b : Nat) (x : Int) :
    WFMat (setE r a b x) n := by
  refine ⟨by rw [length_setE, hWF.1], ?_⟩
  intro row hrow
  by_cases ha : a < n
  · rcases List.mem_or_eq_of_mem_set hrow with h | h
    · exact hWF.2 _ h
    · subst h
      rw [List.length_set]
      exact row_length hWF ha
  · have hnoop : setE r a b x = r := by
      unfold setE
      exact List.set_eq_of_length_le (by rw [hWF.1]; omega)
    rw [hnoop] at hrow
    exact hWF.2 _ hrow

lemma getD_set_self {α : Type} {l : List α} {i : Nat} (h : i < l.length) (y : α) (d : α) :
    (l.set i y).getD i d = y := by
  rw [List.getD_eq_getElem?_getD, List.getElem?_set_self h]
  rfl

lemma getD_set_ne {α : Type} {l : List α} {i j : Nat} (h : i ≠ j) (y : α) (d : α) :
    (l.set i y).getD j d = l.getD j d := by
  rw [List.getD_eq_getElem?_getD, List.getElem?_set_ne h, ← List.getD_eq_getElem?_getD]

lemma getE_setE {r : Mat} {n : Nat} (hWF : WFMat r n) {a b : Nat}
    (ha : a < n) (hb : b < n) (x : Int) (u v : Nat) :
    getE (setE r a b x) u v = if u = a ∧ v = b then x else getE r u v := by
  have halen : a < r.length := by rw [hWF.1]; exact ha
  unfold getE setE
  by_cases hu : u = a
  · subst hu
    rw [getD_set_self halen]
    by_cases hv : v = b
    · subst hv
      have hblen : v < (r.getD u []).length := by rw [row_length hWF ha]; exact hb
      rw [getD_set_self hblen]
      simp
    · rw [getD_set_ne (Ne.symm hv)]
      simp [hv]
  · rw [getD_set_ne (fun h => hu h.symm)]
    simp [hu]

/-! ### Minimum of a list -/

lemma foldl_min_le {l : List Int} : ∀ (a : Int), (l.foldl min a ≤ a) ∧ ∀ x ∈ l, l.foldl min a ≤ x := by
  induction l with
  | nil => intro a; simp
  | cons y ys ih =>
    intro a
    have h := ih (min a y)
    refine ⟨le_trans h.1 (min_le_left _ _), ?_⟩
    intro x hx
    rcases List.mem_cons.1 hx with h' | h'
    · subst h'; exact le_trans h.1 (min_le_right _ _)
    · exact h.2 x h'

lemma minList_cons (x : Int) (xs : List Int) : minList (x :: xs) = xs.foldl min x := rfl

lemma minList_le {l : List Int} {x : Int} (hx : x ∈ l) : minList l ≤ x := by
  cases l with
  | nil => cases hx
  | cons y ys =>
    rw [minList_cons]
    rcases List.mem_cons.1 hx with h | h
    · exact h ▸ (foldl_min_le y).1
    · exact (foldl_min_le y).2 x h

lemma le_foldl_min {c : Int} {l : List Int} : ∀ (a : Int), c ≤ a → (∀ x ∈ l, c ≤ x) → c ≤ l.foldl min a := by
  induction l with
  | nil => intro a ha _; simpa using ha
  | cons y ys ih =>
    intro a ha h
    exact ih (min a y) (le_min ha (h y (by simp))) (fun x hx => h x (by simp [hx]))

lemma le_minList {c : Int} {l : List Int} (hne : l ≠ []) (h : ∀ x ∈ l, c ≤ x) :
    c ≤ minList l := by
  cases l with
  | nil => exact absurd rfl hne
  | cons y ys =>
    rw [minList_cons]
    exact le_foldl_min y (h y (by simp)) (fun x hx => h x (by simp [hx]))

/-! ### Path edge lists -/

lemma mem_pathEdges {q : List Nat} {e : Nat × Nat} (he : e ∈ pathEdges q) :
    e.1 ∈ q ∧ e.2 ∈ q := by
  have := List.of_mem_zip (show (e.1, e.2) ∈ q.zip q.tail from he)
  exact ⟨this.1, List.mem_of_mem_tail this.2⟩

lemma pathEdges_cons₂ (a b : Nat) (rest : List Nat) :
    pathEdges (a :: b :: rest) = (a, b) :: pathEdges (b :: rest) := rfl

lemma pathEdges_ne {q : List Nat} (h : q.Nodup) : ∀ e ∈ pathEdges q, e.1 ≠ e.2 := by
  induction q with
  | nil => intro e he; cases he
  | cons a q ih =>
    cases q with
    | nil => intro e he; cases he
    | cons b rest =>
      intro e he
      rw [pathEdges_cons₂] at he
      rcases List.mem_cons.1 he with h' | h'
      · subst h'
        intro hab
        have hab' : a = b := hab
        exact (List.nodup_cons.1 h).1 (List.mem_cons.2 (Or.inl hab'))
      · exact ih (List.nodup_cons.1 h).2 e h'

lemma pathEdges_pairwise {q : List Nat} (h : q.Nodup) :
    (pathEdges q).Pairwise (fun e e' => e' ≠ e ∧ e' ≠ (e.2, e.1)) := by
  induction q with
  | nil => exact List.Pairwise.nil
  | cons a q ih =>
    cases q with
    | nil => exact List.Pairwise.nil
    | cons b rest =>
      rw [pathEdges_cons₂]
      refine List.Pairwise.cons ?_ (ih (List.nodup_cons.1 h).2)
      intro e' he'
      have hmem := mem_pathEdges he'
      have hanotin : a ∉ b :: rest := (List.nodup_cons.1 h).1
      constructor
      · intro hcontra
        apply hanotin
        have : e'.1 = a := by rw [hcontra]
        exact this ▸ hmem.1
      · intro hcontra
        apply hanotin
        have : e'.2 = a := by rw [hcontra]
        exact this ▸ hmem.2

/-! ### Chains of parent pointers -/

lemma chain_ne_nil {p : List Int} {s v : Nat} {q : List Nat}
    (h : Chain p s v q) : q ≠ [] := by
  cases h <;> simp

lemma chain_head {p : List Int} {s v : Nat} {q : List Nat}
    (h : Chain p s v q) : ∃ q₀, q = v :: q₀ := by
  cases h with
  | base => exact ⟨[], rfl⟩
  | step _ _ _ => exact ⟨_, rfl⟩

lemma chain_getLast? {p : List Int} {s v : Nat} {q : List Nat}
    (h : Chain p s v q) : q.getLast? = some s := by
  induction h with
  | base => rfl
  | step _ _ hch ih =>
    obtain ⟨q₀, rfl⟩ := chain_head hch
    rw [List.getLast?_cons_cons]
    exact ih

lemma chain_marked {p : List Int} {s v : Nat} {q : List Nat}
    (h : Chain p s v q) : ∀ y ∈ q, y ≠ s → p.getD y (-1) ≠ -1 := by
  induction h with
  | base =>
    intro y hy hys
    simp at hy
    exact absurd hy hys
  | step hne hpar _ ih =>
    intro y hy hys
    rcases List.mem_cons.1 hy with h' | h'
    · subst h'; rw [hpar]; simp
    · exact ih y h' hys

lemma chain_congr {p p' : List Int} {s v : Nat} {q : List Nat}
    (hpres : ∀ y ∈ q, y ≠ s → p'.getD y (-1) = p.getD y (-1))
    (h : Chain p s v q) : Chain p' s v q := by
  induction h with
  | base => exact Chain.base
  | step hne hpar hch ih =>
    refine Chain.step hne ?_ (ih (fun y hy hys => hpres y (by simp [hy]) hys))
    rw [hpres _ (by simp) hne]
    exact hpar

lemma chain_unique {p : List Int} {s v : Nat} {q : List Nat}
    (h : Chain p s v q) : ∀ q', Chain p s v q' → q = q' := by
  induction h with
  | base =>
    intro q' h'
    cases h' with
    | base => rfl
    | step hne _ _ => exact absurd rfl hne
  | step hne hpar hch ih =>
    intro q' h'
    cases h' with
    | base => exact absurd rfl hne
    | step hne' hpar' hch' =>
      rename_i u q u' q''
      have huu : u = u' := by
        rw [hpar] at hpar'
        exact Int.ofNat.inj hpar'
      subst huu
      rw [ih _ hch']

lemma chain_suffix_of_mem {p : List Int} {s v : Nat} {q : List Nat}
    (h : Chain p s v q) : ∀ x ∈ q, ∃ qx, Chain p s x qx ∧ qx <:+ q := by
  induction h with
  | base =>
    intro x hx
    simp at hx
    subst hx
    exact ⟨_, Chain.base, List.suffix_refl _⟩
  | step hne hpar hch ih =>
    intro x hx
    rcases List.mem_cons.1 hx with h' | h'
    · subst h'
      exact ⟨_, Chain.step hne hpar hch, List.suffix_refl _⟩
    · obtain ⟨qx, hqx, hsuf⟩ := ih x h'
      exact ⟨qx, hqx, hsuf.trans (List.suffix_cons _ _)⟩

lemma chain_nodup {p : List Int} {s v : Nat} {q : List Nat}
    (h : Chain p s v q) : q.Nodup := by
  induction h with
  | base => simp
  | step hne hpar hch ih =>
    rename_i v u q
    rw [List.nodup_cons]
    refine ⟨?_, ih⟩
    intro hv
    obtain ⟨qv, hqv, hsuf⟩ := chain_suffix_of_mem hch v hv
    have heq : v :: q = qv := chain_unique (Chain.step hne hpar hch) _ hqv
    have hlen := hsuf.length_le
    rw [← heq] at hlen
    simp at hlen

lemma chain_lt {p : List Int} {n s v : Nat} (hlen : p.length = n) (hs : s < n)
    {q : List Nat} (h : Chain p s v q) : ∀ y ∈ q, y < n := by
  intro y hy
  by_cases hys : y = s
  · omega
  · have := chain_marked h y hy hys
    by_contra hge
    rw [getD_eq_of_le (by omega)] at this
    exact this rfl

lemma chain_length_le {p : List Int} {n s v : Nat} (hlen : p.length = n) (hs : s < n)
    {q : List Nat} (h : Chain p s v q) : q.length ≤ n := by
  have hsub : q ⊆ List.range n := by
    intro y hy
    exact List.mem_range.2 (chain_lt hlen hs h y hy)
  have := (List.subperm_of_subset (chain_nodup h) hsub).length_le
  simpa using this

lemma chain_two_le {p : List Int} {s v : Nat} {q : List Nat}
    (h : Chain p s v q) (hne : v ≠ s) : 2 ≤ q.length := by
  cases h with
  | base => exact absurd rfl hne
  | step hne' hpar hch =>
    have := chain_ne_nil hch
    rename_i u q
    cases q with
    | nil => exact absurd rfl this
    | cons a l => simp

/-- Following parent pointers (`walk`) succeeds and returns exactly the
chain, given enough fuel. -/
lemma walk_of_chain {p : List Int} {s v : Nat} {q : List Nat}
    (h : Chain p s v q) : ∀ fuel, q.length ≤ fuel + 1 → walk p s fuel v = some q := by
  induction h with
  | base =>
    intro fuel _
    cases fuel <;> simp [walk]
  | step hne hpar hch ih =>
    intro fuel hfuel
    have hq := chain_ne_nil hch
    cases fuel with
    | zero =>
      exfalso
      rename_i u q
      cases q with
      | nil => exact hq rfl
      | cons a l => simp at hfuel
    | succ f =>
      show walk p s (f+1) _ = _
      simp only [walk, if_neg hne, hpar]
      rw [ih f (by simpa using Nat.le_of_succ_le_succ (by simpa using hfuel))]
      rfl

/-- Whatever `walk` returns is a chain. -/
lemma chain_of_walk {p : List Int} {s : Nat} :
    ∀ fuel v q, walk p s fuel v = some q → Chain p s v q := by
  intro fuel
  induction fuel with
  | zero =>
    intro v q h
    rw [walk] at h
    by_cases hv : v = s
    · subst hv
      rw [if_pos rfl] at h
      cases h
      exact Chain.base
    · rw [if_neg hv] at h
      cases h
  | succ f ih =>
    intro v q h
    by_cases hv : v = s
    · subst hv
      rw [walk, if_pos rfl] at h
      cases h
      exact Chain.base
    · cases hpar : p.getD v (-1) with
      | ofNat u =>
        simp only [walk, if_neg hv, hpar] at h
        cases hw : walk p s f u with
        | none => rw [hw] at h; cases h
        | some q₀ =>
          rw [hw] at h
          simp at h
          subst h
          exact Chain.step hv hpar (ih u q₀ hw)
      | negSucc k =>
        simp only [walk, if_neg hv, hpar] at h
        cases h

/-! ### Counting endpoints of path edges -/

lemma pathEdges_countP_fst (w : Nat) : ∀ (q : List Nat),
    (pathEdges q).countP (fun e => decide (e.1 = w)) =
      q.dropLast.countP (fun x => decide (x = w))
  | [] => rfl
  | [_] => rfl
  | a :: b :: rest => by
    rw [pathEdges_cons₂, List.countP_cons, pathEdges_countP_fst w (b :: rest),
      show (a :: b :: rest).dropLast = a :: (b :: rest).dropLast from rfl,
      List.countP_cons]

lemma pathEdges_countP_snd (w : Nat) : ∀ (q : List Nat),
    (pathEdges q).countP (fun e => decide (e.2 = w)) =
      q.tail.countP (fun x => decide (x = w))
  | [] => rfl
  | [_] => rfl
  | a :: b :: rest => by
    rw [pathEdges_cons₂, List.countP_cons, pathEdges_countP_snd w (b :: rest),
      show (a :: b :: rest).tail = b :: rest from rfl, List.countP_cons]
    rfl

/-! ### BFS invariants -/

lemma chain_edges_pos {r : Mat} {p : List Int} {s v : Nat}
    (hE : ∀ x u, x ≠ s → p.getD x (-1) = Int.ofNat u → 0 < getE r u x)
    {q : List Nat} (h : Chain p s v q) : ∀ e ∈ pathEdges q, 0 < getE r e.2 e.1 := by
  induction h with
  | base => intro e he; cases he
  | step hne hpar hch ih =>
    obtain ⟨q₁, rfl⟩ := chain_head hch
    intro e he
    rw [pathEdges_cons₂] at he
    rcases List.mem_cons.1 he with h' | h'
    · subst h'
      exact hE _ _ hne hpar
    · exact ih e h'

lemma scanAux_zero (r : Mat) (t u : Nat) (parent : List Int) (v : Nat) :
    scanAux r t u parent v 0 = (parent, [], false) := rfl

lemma scanAux_succ (r : Mat) (t u : Nat) (parent : List Int) (v left : Nat) :
    scanAux r t u parent v (left+1) =
      if parent.getD v (-1) = -1 ∧ 0 < getE r u v then
        (if v = t then (parent.set v (Int.ofNat u), [v], true)
         else ((scanAux r t u (parent.set v (Int.ofNat u)) (v+1) left).1,
               v :: (scanAux r t u (parent.set v (Int.ofNat u)) (v+1) left).2.1,
               (scanAux r t u (parent.set v (Int.ofNat u)) (v+1) left).2.2))
      else scanAux r t u parent (v+1) left := rfl

lemma scanAux_spec {r : Mat} {n s t u : Nat} :
    ∀ left v p, v + left ≤ n → ParentInv r n s p → (∃ qu, Chain p s u qu) →
    ParentInv r n s (scanAux r t u p v left).1 ∧
    (∀ x, p.getD x (-1) ≠ -1 → (scanAux r t u p v left).1.getD x (-1) = p.getD x (-1)) ∧
    (∀ x ∈ (scanAux r t u p v left).2.1, x < n ∧ (scanAux r t u p v left).1.getD x (-1) ≠ -1) ∧
    ((scanAux r t u p v left).2.2 = true →
      t < n ∧ p.getD t (-1) = -1 ∧ (scanAux r t u p v left).1.getD t (-1) ≠ -1) := by
  intro left
  induction left with
  | zero =>
    intro v p hvn hP hu
    rw [scanAux_zero]
    exact ⟨hP, fun x _ => rfl, by simp, by simp⟩
  | succ left ih =>
    intro v p hvn hP hu
    rw [scanAux_succ]
    by_cases hc : p.getD v (-1) = -1 ∧ 0 < getE r u v
    · rw [if_pos hc]
      have hvlt : v < n := by omega
      have hvlen : v < p.length := by rw [hP.1]; exact hvlt
      have hvs : v ≠ s := by
        intro hcontra
        rw [hcontra, hP.2.1] at hc
        exact absurd hc.1 (by simp)
      have e1 : (p.set v (Int.ofNat u)).getD v (-1) = Int.ofNat u :=
        getD_set_self hvlen _ _
      have e2 : ∀ x, x ≠ v → (p.set v (Int.ofNat u)).getD x (-1) = p.getD x (-1) :=
        fun x hx => getD_set_ne (fun h => hx h.symm) _ _
      obtain ⟨qu, hqu⟩ := hu
      have hqu' : Chain (p.set v (Int.ofNat u)) s u qu := by
        refine chain_congr ?_ hqu
        intro y hy hys
        refine e2 y ?_
        intro hyv
        subst hyv
        exact chain_marked hqu y hy hys hc.1
      have hP' : ParentInv r n s (p.set v (Int.ofNat u)) := by
        refine ⟨by rw [List.length_set]; exact hP.1, ?_, ?_, ?_⟩
        · rw [e2 s (fun h => hvs h.symm)]; exact hP.2.1
        · intro x u' hxs hmark
          by_cases hxv : x = v
          · subst hxv
            rw [e1] at hmark
            have : u' = u := Int.ofNat.inj hmark.symm
            subst this
            exact hc.2
          · rw [e2 x hxv] at hmark
            exact hP.2.2.1 x u' hxs hmark
        · intro x hmark
          by_cases hxv : x = v
          · subst hxv
            exact ⟨_, Chain.step hvs e1 hqu'⟩
          · rw [e2 x hxv] at hmark
            obtain ⟨qx, hqx⟩ := hP.2.2.2 x hmark
            refine ⟨qx, chain_congr ?_ hqx⟩
            intro y hy hys
            refine e2 y ?_
            intro hyv
            subst hyv
            exact chain_marked hqx y hy hys hc.1
      by_cases hvt : v = t
      · rw [if_pos hvt]
        subst hvt
        refine ⟨hP', ?_, ?_, ?_⟩
        · intro x hmark
          exact e2 x (fun h => hmark (by rw [h]; exact hc.1))
        · intro x hx
          simp at hx
          subst hx
          exact ⟨hvlt, by rw [e1]; simp⟩
        · intro _
          exact ⟨hvlt, hc.1, by rw [e1]; simp⟩
      · rw [if_neg hvt]
        obtain ⟨RP, Rpres, Radds, Rfound⟩ :=
          ih (v+1) (p.set v (Int.ofNat u)) (by omega) hP' ⟨qu, hqu'⟩
        have hmarkv : (p.set v (Int.ofNat u)).getD v (-1) ≠ -1 := by rw [e1]; simp
        refine ⟨RP, ?_, ?_, ?_⟩
        · intro x hmark
          have hxv : x ≠ v := fun h => hmark (by rw [h]; exact hc.1)
          rw [Rpres x (by rw [e2 x hxv]; exact hmark), e2 x hxv]
        · intro x hx
          rcases List.mem_cons.1 hx with h' | h'
          · subst h'
            exact ⟨hvlt, by rw [Rpres x hmarkv]; exact hmarkv⟩
          · exact Radds x h'
        · intro hf
          obtain ⟨ht1, ht2, ht3⟩ := Rfound hf
          refine ⟨ht1, ?_, ht3⟩
          have htv : t ≠ v := fun h => hvt h.symm
          rw [e2 t htv] at ht2
          exact ht2
    · rw [if_neg hc]
      exact ih (v+1) p (by omega) hP hu

lemma bfsLoop_nilQueue (r : Mat) (n t : Nat) :
    ∀ fuel p, bfsLoop r n t fuel p [] = (false, p) := by
  intro fuel p
  cases fuel <;> rfl

lemma bfsLoop_succ_cons (r : Mat) (n t fuel : Nat) (parent : List Int)
    (u : Nat) (rest : List Nat) :
    bfsLoop r n t (fuel+1) parent (u :: rest) =
      (if (scanAux r t u parent 0 n).2.2 then (true, (scanAux r t u parent 0 n).1)
       else bfsLoop r n t fuel (scanAux r t u parent 0 n).1
         (rest ++ (scanAux r t u parent 0 n).2.1)) := rfl

lemma bfsLoop_spec {r : Mat} {n s t : Nat} :
    ∀ fuel queue p, ParentInv r n s p → (∀ x ∈ queue, ∃ qx, Chain p s x qx) →
    ParentInv r n s (bfsLoop r n t fuel p queue).2 ∧
    (∀ x, p.getD x (-1) ≠ -1 →
      (bfsLoop r n t fuel p queue).2.getD x (-1) = p.getD x (-1)) ∧
    ((bfsLoop r n t fuel p queue).1 = true →
      t < n ∧ p.getD t (-1) = -1 ∧ (bfsLoop r n t fuel p queue).2.getD t (-1) ≠ -1) := by
  intro fuel
  induction fuel with
  | zero =>
    intro queue p hP hQ
    exact ⟨hP, fun x _ => rfl, by simp [bfsLoop]⟩
  | succ fuel ih =>
    intro queue p hP hQ
    cases queue with
    | nil =>
      rw [bfsLoop_nilQueue]
      exact ⟨hP, fun x _ => rfl, by simp⟩
    | cons u rest =>
      rw [bfsLoop_succ_cons]
      obtain ⟨SP, Spres, Sadds, Sfound⟩ :=
        scanAux_spec (t := t) n 0 p (by omega) hP (hQ u (by simp))
      cases hfound : (scanAux r t u p 0 n).2.2 with
      | true =>
        rw [if_pos rfl]
        exact ⟨SP, Spres, fun _ => Sfound hfound⟩
      | false =>
        rw [if_neg (by simp)]
        have hQ' : ∀ x ∈ rest ++ (scanAux r t u p 0 n).2.1,
            ∃ qx, Chain (scanAux r t u p 0 n).1 s x qx := by
          intro x hx
          rcases List.mem_append.1 hx with h' | h'
          · obtain ⟨qx, hqx⟩ := hQ x (by simp [h'])
            refine ⟨qx, chain_congr ?_ hqx⟩
            intro y hy hys
            exact Spres y (chain_marked hqx y hy hys)
          · exact SP.2.2.2 x (Sadds x h').2
        obtain ⟨RP, Rpres, Rfound⟩ := ih _ _ SP hQ'
        refine ⟨RP, ?_, ?_⟩
        · intro x hmark
          rw [Rpres x (by rw [Spres x hmark]; exact hmark), Spres x hmark]
        · intro hf
          obtain ⟨ht1, ht2, ht3⟩ := Rfound hf
          refine ⟨ht1, ?_, ht3⟩
          by_cases hmark : p.getD t (-1) = -1
          · exact hmark
          · rw [Spres t hmark] at ht2
            exact absurd ht2 hmark

/-! ### Packaged BFS specification -/

lemma length_initParent (n s : Nat) : (initParent n s).length = n := by
  simp [initParent]

lemma initParent_getD (n s x : Nat) :
    (initParent n s).getD x (-1) = if x = s ∧ s < n then Int.ofNat s else -1 := by
  unfold initParent
  by_cases hs : s < n
  · by_cases hx : x = s
    · subst hx
      rw [getD_set_self (by simpa using hs)]
      simp [hs]
    · rw [getD_set_ne (fun h => hx h.symm)]
      by_cases hxn : x < n
      · rw [getD_eq_of_lt (by simpa using hxn)]
        simp [hx]
      · rw [getD_eq_of_le (by simpa using hxn)]
        simp [hx]
  · rw [List.set_eq_of_length_le (by simpa using hs)]
    by_cases hxn : x < n
    · rw [getD_eq_of_lt (by simpa using hxn)]
      simp [hs]
    · rw [getD_eq_of_le (by simpa using hxn)]
      simp [hs]

lemma bfs_spec {r : Mat} {n s t : Nat} (hs : s < n) :
    ParentInv r n s (bfs r n s t).2 ∧
    ((bfs r n s t).1 = true → t < n ∧ t ≠ s ∧ (bfs r n s t).2.getD t (-1) ≠ -1) := by
  have hPinit : ParentInv r n s (initParent n s) := by
    refine ⟨length_initParent n s, ?_, ?_, ?_⟩
    · rw [initParent_getD, if_pos ⟨rfl, hs⟩]
    · intro x u hxs hmark
      rw [initParent_getD, if_neg (by tauto)] at hmark
      exfalso
      have hge : (0:Int) ≤ Int.ofNat u := Int.ofNat_nonneg u
      omega
    · intro x hmark
      rw [initParent_getD] at hmark
      by_cases hcond : x = s ∧ s < n
      · obtain ⟨hx, _⟩ := hcond
        subst hx
        exact ⟨_, Chain.base⟩
      · rw [if_neg hcond] at hmark
        exact absurd rfl hmark
  obtain ⟨P, pres, found⟩ :=
    bfsLoop_spec (t := t) (n*n+n+2) [s] (initParent n s) hPinit
      (by
        intro x hx
        simp at hx
        subst hx
        exact ⟨_, Chain.base⟩)
  refine ⟨P, ?_⟩
  intro hf
  obtain ⟨ht1, ht2, ht3⟩ := found hf
  refine ⟨ht1, ?_, ht3⟩
  intro hts
  rw [hts, initParent_getD, if_pos ⟨rfl, hs⟩] at ht2
  have hge : (0:Int) ≤ Int.ofNat s := Int.ofNat_nonneg s
  omega


/-- After a successful BFS, the walk back from the sink succeeds and
returns a duplicate-free path from sink to source whose edges all have
strictly positive residual capacity. -/
lemma bfs_path {r : Mat} {n s t : Nat} (hs : s < n)
    (hfound : (bfs r n s t).1 = true) :
    ∃ q, walk (bfs r n s t).2 s n t = some q ∧
      q.Nodup ∧ (∀ x ∈ q, x < n) ∧
      q.head? = some t ∧ q.getLast? = some s ∧ 2 ≤ q.length ∧
      ∀ e ∈ pathEdges q, 0 < getE r e.2 e.1 := by
  obtain ⟨P, hfspec⟩ := bfs_spec (r := r) (t := t) hs
  obtain ⟨htn, hts, hmark⟩ := hfspec hfound
  obtain ⟨q, hq⟩ := P.2.2.2 t hmark
  refine ⟨q, ?_, chain_nodup hq, chain_lt P.1 hs hq, ?_,
    chain_getLast? hq, chain_two_le hq hts, chain_edges_pos P.2.2.1 hq⟩
  · exact walk_of_chain hq n (le_trans (chain_length_le P.1 hs hq) (by omega))
  · obtain ⟨q₀, rfl⟩ := chain_head hq
    rfl

lemma scanAux_noMark {r : Mat} {t u : Nat} (h : ∀ v', ¬ 0 < getE r u v') :
    ∀ left v p, scanAux r t u p v left = (p, [], false) := by
  intro left
  induction left with
  | zero => intro v p; rfl
  | succ left ih =>
    intro v p
    rw [scanAux_succ, if_neg (fun hc => h v hc.2), ih]

/-- With an out-of-range source the BFS marks nothing and reports no
path (the Python original would instead raise an IndexError when
seeding the parent array). -/
lemma bfs_ge {r : Mat} {n s t : Nat} (hWF : WFMat r n) (hs : n ≤ s) :
    bfs r n s t = (false, initParent n s) := by
  have hrow : ∀ v', ¬ 0 < getE r s v' := by
    intro v' h
    unfold getE at h
    rw [getD_eq_of_le (show r.length ≤ s from by rw [hWF.1]; omega)] at h
    simp at h
  show bfsLoop r n t ((n*n+n+1)+1) (initParent n s) [s] = _
  rw [bfsLoop_succ_cons, scanAux_noMark hrow]
  simp [bfsLoop_nilQueue]

/-! ### Effect of one augmentation on the residual table -/

lemma WFMat_applyStep {r : Mat} {n : Nat} (hWF : WFMat r n) (f : Int) (e : Nat × Nat) :
    WFMat (applyStep f r e) n :=
  WFMat_setE (WFMat_setE hWF _ _ _) _ _ _

lemma applyStep_unfold (f : Int) (r : Mat) (a b : Nat) :
    applyStep f r (a, b) =
      setE (setE r b a (getE r b a - f)) a b
        (getE (setE r b a (getE r b a - f)) a b + f) := rfl

lemma applyStep_inner {r : Mat} {n : Nat} (hWF : WFMat r n) {a b : Nat}
    (ha : a < n) (hb : b < n) (hab : a ≠ b) (f : Int) :
    getE (setE r b a (getE r b a - f)) a b = getE r a b := by
  rw [getE_setE hWF hb ha]
  rw [if_neg]
  rintro ⟨h', _⟩
  exact hab h'

lemma getE_applyStep {r : Mat} {n : Nat} (hWF : WFMat r n) {a b : Nat}
    (ha : a < n) (hb : b < n) (hab : a ≠ b) (f : Int) (u v : Nat) :
    getE (applyStep f r (a, b)) u v =
      getE r u v + (if u = b ∧ v = a then -f else 0) +
        (if u = a ∧ v = b then f else 0) := by
  rw [applyStep_unfold, applyStep_inner hWF ha hb hab]
  rw [getE_setE (WFMat_setE hWF b a _) ha hb]
  rw [getE_setE hWF hb ha]
  by_cases hA : u = a ∧ v = b
  · rw [if_pos hA]
    rw [if_neg (show ¬(u = b ∧ v = a) from fun hB => hab (by omega))]
    rw [if_pos hA]
    obtain ⟨rfl, rfl⟩ := hA
    ring
  · by_cases hB : u = b ∧ v = a
    · rw [if_neg hA, if_pos hB, if_pos hB, if_neg hA]
      obtain ⟨rfl, rfl⟩ := hB
      ring
    · rw [if_neg hA, if_neg hB, if_neg hB, if_neg hA]
      ring

lemma sum_map_add {α : Type} (g h : α → Int) : ∀ (l : List α),
    (l.map (fun e => g e + h e)).sum = (l.map g).sum + (l.map h).sum := by
  intro l
  induction l with
  | nil => simp
  | cons e l ih =>
    simp only [List.map_cons, List.sum_cons, ih]
    ring

lemma getE_applyAugE {n : Nat} (f : Int) :
    ∀ (E : List (Nat × Nat)) (r : Mat), WFMat r n →
      (∀ e ∈ E, e.1 < n ∧ e.2 < n ∧ e.1 ≠ e.2) →
      WFMat (applyAugE f E r) n ∧
      ∀ u v, getE (applyAugE f E r) u v = getE r u v +
        (E.map (fun e => (if u = e.2 ∧ v = e.1 then -f else 0) +
                         (if u = e.1 ∧ v = e.2 then f else 0))).sum := by
  intro E
  induction E with
  | nil =>
    intro r hWF _
    exact ⟨hWF, by simp [applyAugE]⟩
  | cons e E ih =>
    intro r hWF hE
    have he := hE e (by simp)
    have hstep : applyAugE f (e :: E) r = applyAugE f E (applyStep f r e) := rfl
    obtain ⟨a, b⟩ := e
    have hWF' : WFMat (applyStep f r (a, b)) n := WFMat_applyStep hWF f _
    obtain ⟨W, G⟩ := ih (applyStep f r (a, b)) hWF' (fun e' he' => hE e' (by simp [he']))
    refine ⟨by rw [hstep]; exact W, ?_⟩
    intro u v
    rw [hstep, G u v, getE_applyStep hWF he.1 he.2.1 he.2.2]
    rw [List.map_cons, List.sum_cons]
    ring

lemma applyAugE_pairSum {n : Nat} (f : Int) (E : List (Nat × Nat)) (r : Mat)
    (hWF : WFMat r n) (hE : ∀ e ∈ E, e.1 < n ∧ e.2 < n ∧ e.1 ≠ e.2) (u v : Nat) :
    getE (applyAugE f E r) u v + getE (applyAugE f E r) v u =
      getE r u v + getE r v u := by
  obtain ⟨_, G⟩ := getE_applyAugE f E r hWF hE
  rw [G u v, G v u]
  have hzero : (E.map (fun e =>
      ((if u = e.2 ∧ v = e.1 then -f else 0) + (if u = e.1 ∧ v = e.2 then f else 0)) +
      ((if v = e.2 ∧ u = e.1 then -f else 0) + (if v = e.1 ∧ u = e.2 then f else 0)))).sum
      = 0 := by
    apply List.sum_eq_zero
    intro x hx
    obtain ⟨e, _, rfl⟩ := List.mem_map.1 hx
    have c3 : (v = e.2 ∧ u = e.1) ↔ (u = e.1 ∧ v = e.2) := and_comm
    have c4 : (v = e.1 ∧ u = e.2) ↔ (u = e.2 ∧ v = e.1) := and_comm
    rw [if_congr c3 rfl rfl, if_congr c4 rfl rfl]
    split_ifs <;> ring
  have hsplit := sum_map_add
    (fun e => (if u = e.2 ∧ v = e.1 then -f else 0) + (if u = e.1 ∧ v = e.2 then f else 0))
    (fun e => (if v = e.2 ∧ u = e.1 then -f else 0) + (if v = e.1 ∧ u = e.2 then f else 0)) E
  rw [hsplit] at hzero
  linarith

/-! ### Membership form of the augmentation delta -/

lemma pairwise_cases {α : Type} {R : α → α → Prop} :
    ∀ {E : List α}, E.Pairwise R → ∀ {a b : α}, a ∈ E → b ∈ E → a = b ∨ R a b ∨ R b a := by
  intro E h
  induction h with
  | nil =>
    intro a b ha _
    cases ha
  | cons hr hpw ih =>
    intro a b ha hb
    rcases List.mem_cons.1 ha with rfl | ha'
    · rcases List.mem_cons.1 hb with rfl | hb'
      · exact Or.inl rfl
      · exact Or.inr (Or.inl (hr _ hb'))
    · rcases List.mem_cons.1 hb with rfl | hb'
      · exact Or.inr (Or.inr (hr _ ha'))
      · exact ih ha' hb'

lemma sum_delta_mem {f : Int} {u v : Nat} :
    ∀ (E : List (Nat × Nat)),
    E.Pairwise (fun e e' => e' ≠ e ∧ e' ≠ (e.2, e.1)) →
    (∀ e ∈ E, e.1 ≠ e.2) →
    (E.map (fun e => (if u = e.2 ∧ v = e.1 then -f else 0) +
                     (if u = e.1 ∧ v = e.2 then f else 0))).sum =
      (if (v, u) ∈ E then -f else 0) + (if (u, v) ∈ E then f else 0) := by
  intro E
  induction E with
  | nil => simp
  | cons e E ih =>
    intro hpw hne
    obtain ⟨hsep, hpw'⟩ := List.pairwise_cons.1 hpw
    rw [List.map_cons, List.sum_cons, ih hpw' (fun e' he' => hne e' (by simp [he']))]
    obtain ⟨a, b⟩ := e
    have hab : a ≠ b := hne (a, b) (by simp)
    by_cases h1 : v = a ∧ u = b
    · obtain ⟨rfl, rfl⟩ := h1
      have hm1 : (v, u) ∉ E := fun hm => (hsep _ hm).1 rfl
      have hm2 : (u, v) ∉ E := fun hm => (hsep _ hm).2 rfl
      rw [if_neg hm1, if_neg hm2]
      rw [if_pos (List.mem_cons_self _ _)]
      have huv : (u, v) ∉ (v, u) :: E := by
        rw [List.mem_cons]
        rintro (h | h)
        · exact hab ((congrArg Prod.fst h).symm)
        · exact hm2 h
      rw [if_neg huv]
      rw [if_pos ⟨rfl, rfl⟩]
      rw [if_neg (show ¬(u = v ∧ v = u) from fun h => hab h.1.symm)]
      ring
    · by_cases h2 : u = a ∧ v = b
      · obtain ⟨rfl, rfl⟩ := h2
        have hm2 : (u, v) ∉ E := fun hm => (hsep _ hm).1 rfl
        have hm1 : (v, u) ∉ E := fun hm => (hsep _ hm).2 rfl
        rw [if_neg hm1, if_neg hm2]
        have hvu : (v, u) ∉ (u, v) :: E := by
          rw [List.mem_cons]
          rintro (h | h)
          · rw [Prod.mk.injEq] at h
            exact hab h.1.symm
          · exact hm1 h
        rw [if_neg hvu, if_pos (List.mem_cons_self _ _)]
        rw [if_neg (show ¬(u = v ∧ v = u) from fun h => hab h.1)]
        rw [if_pos ⟨rfl, rfl⟩]
        ring
      · have c1 : ((v, u) ∈ (a, b) :: E) ↔ ((v, u) ∈ E) := by
          rw [List.mem_cons]
          constructor
          · rintro (h | h)
            · exact absurd ⟨congrArg Prod.fst h, congrArg Prod.snd h⟩ h1
            · exact h
          · exact Or.inr
        have c2 : ((u, v) ∈ (a, b) :: E) ↔ ((u, v) ∈ E) := by
          rw [List.mem_cons]
          constructor
          · rintro (h | h)
            · exact absurd ⟨congrArg Prod.fst h, congrArg Prod.snd h⟩ h2
            · exact h
          · exact Or.inr
        rw [if_congr c1 rfl rfl, if_congr c2 rfl rfl]
        rw [if_neg (fun h => h1 ⟨h.2, h.1⟩), if_neg h2]
        ring

lemma applyAugE_nonneg {n : Nat} {f : Int} {E : List (Nat × Nat)} {r : Mat}
    (hWF : WFMat r n) (hE : ∀ e ∈ E, e.1 < n ∧ e.2 < n ∧ e.1 ≠ e.2)
    (hpw : E.Pairwise (fun e e' => e' ≠ e ∧ e' ≠ (e.2, e.1)))
    (hf : 0 ≤ f) (hres : ∀ e ∈ E, f ≤ getE r e.2 e.1)
    (hnn : ∀ u v, 0 ≤ getE r u v) :
    ∀ u v, 0 ≤ getE (applyAugE f E r) u v := by
  intro u v
  obtain ⟨_, G⟩ := getE_applyAugE f E r hWF hE
  rw [G u v, sum_delta_mem E hpw (fun e he => (hE e he).2.2)]
  by_cases h1 : (v, u) ∈ E
  · have hru := hres _ h1
    have h2 : (u, v) ∉ E := by
      intro hm
      have hne' : (u, v) ≠ (v, u) := by
        intro h
        rw [Prod.mk.injEq] at h
        have hvu : v ≠ u := (hE _ h1).2.2
        exact hvu h.1.symm
      rcases pairwise_cases hpw hm h1 with h | h | h
      · exact hne' h
      · exact h.2 rfl
      · exact h.2 rfl
    rw [if_pos h1, if_neg h2]
    have := hnn u v
    linarith
  · rw [if_neg h1]
    by_cases h2 : (u, v) ∈ E
    · rw [if_pos h2]
      have := hnn u v
      linarith
    · rw [if_neg h2]
      have := hnn u v
      linarith

lemma applyAugE_row {n s : Nat} {f : Int} {E : List (Nat × Nat)} {r : Mat}
    (hWF : WFMat r n) (hE : ∀ e ∈ E, e.1 < n ∧ e.2 < n ∧ e.1 ≠ e.2)
    (hpw : E.Pairwise (fun e e' => e' ≠ e ∧ e' ≠ (e.2, e.1)))
    (hfst : ∀ e ∈ E, e.1 ≠ s) (v : Nat) :
    getE (applyAugE f E r) s v = getE r s v - (if (v, s) ∈ E then f else 0) := by
  obtain ⟨_, G⟩ := getE_applyAugE f E r hWF hE
  rw [G s v, sum_delta_mem E hpw (fun e he => (hE e he).2.2)]
  rw [if_neg (show (s, v) ∉ E from fun hm => hfst _ hm rfl)]
  split_ifs <;> ring

/-! ### Column sums and the source-row measure -/

lemma colSum_applyStep {r : Mat} {n : Nat} (hWF : WFMat r n) {a b : Nat}
    (ha : a < n) (hb : b < n) (hab : a ≠ b) (f : Int) (w : Nat) :
    colSum (applyStep f r (a, b)) n w =
      colSum r n w + (if b = w then f else 0) - (if a = w then f else 0) := by
  unfold colSum
  rw [Finset.sum_congr rfl (fun u _ => getE_applyStep hWF ha hb hab f u w)]
  rw [Finset.sum_add_distrib, Finset.sum_add_distrib]
  have h1 : (∑ u ∈ Finset.range n, if u = b ∧ w = a then -f else 0)
      = if a = w then -f else 0 := by
    by_cases haw : w = a
    · have hc : ∀ u : Nat, (if u = b ∧ w = a then -f else 0) = (if u = b then -f else 0) := by
        intro u
        simp [haw]
      rw [Finset.sum_congr rfl (fun u _ => hc u)]
      rw [Finset.sum_ite_eq' (Finset.range n) b (fun _ => -f)]
      simp [hb, haw]
    · have hc : ∀ u : Nat, (if u = b ∧ w = a then -f else 0) = 0 := by
        intro u
        simp [haw]
      rw [Finset.sum_congr rfl (fun u _ => hc u)]
      rw [if_neg (fun h => haw h.symm)]
      simp
  have h2 : (∑ u ∈ Finset.range n, if u = a ∧ w = b then f else 0)
      = if b = w then f else 0 := by
    by_cases hbw : w = b
    · have hc : ∀ u : Nat, (if u = a ∧ w = b then f else 0) = (if u = a then f else 0) := by
        intro u
        simp [hbw]
      rw [Finset.sum_congr rfl (fun u _ => hc u)]
      rw [Finset.sum_ite_eq' (Finset.range n) a (fun _ => f)]
      simp [ha, hbw]
    · have hc : ∀ u : Nat, (if u = a ∧ w = b then f else 0) = 0 := by
        intro u
        simp [hbw]
      rw [Finset.sum_congr rfl (fun u _ => hc u)]
      rw [if_neg (fun h => hbw h.symm)]
      simp
  rw [h1, h2]
  split_ifs <;> ring

lemma colSum_applyAugE {n : Nat} (f : Int) :
    ∀ (E : List (Nat × Nat)) (r : Mat), WFMat r n →
      (∀ e ∈ E, e.1 < n ∧ e.2 < n ∧ e.1 ≠ e.2) → ∀ w,
      colSum (applyAugE f E r) n w =
        colSum r n w + f * (E.countP (fun e => decide (e.2 = w)) : Int)
          - f * (E.countP (fun e => decide (e.1 = w)) : Int) := by
  intro E
  induction E with
  | nil =>
    intro r hWF _ w
    simp [applyAugE]
  | cons e E ih =>
    intro r hWF hE w
    have he := hE e (by simp)
    obtain ⟨a, b⟩ := e
    have hstep : applyAugE f ((a, b) :: E) r = applyAugE f E (applyStep f r (a, b)) := rfl
    rw [hstep, ih _ (WFMat_applyStep hWF f _) (fun e' he' => hE e' (by simp [he'])) w]
    rw [colSum_applyStep hWF he.1 he.2.1 he.2.2 f w]
    rw [List.countP_cons, List.countP_cons]
    simp only [decide_eq_true_eq]
    push_cast
    split_ifs <;> ring

lemma countP_dropLast_tail {q : List Nat} {w : Nat} (hq : q ≠ [])
    (hhead : q.head? ≠ some w) (hlast : q.getLast? ≠ some w) :
    q.dropLast.countP (fun x => decide (x = w)) =
      q.tail.countP (fun x => decide (x = w)) := by
  have hsplit : q.dropLast ++ [q.getLast hq] = q := List.dropLast_append_getLast hq
  have h1 : q.countP (fun x => decide (x = w)) =
      q.dropLast.countP (fun x => decide (x = w)) := by
    conv_lhs => rw [← hsplit]
    rw [List.countP_append]
    have hne : q.getLast hq ≠ w := by
      intro h
      exact hlast (by rw [List.getLast?_eq_getLast q hq, h])
    simp [hne]
  have h2 : q.countP (fun x => decide (x = w)) =
      q.tail.countP (fun x => decide (x = w)) := by
    cases q with
    | nil => exact absurd rfl hq
    | cons h t =>
      rw [List.countP_cons]
      have hne : h ≠ w := fun hh => hhead (by rw [hh]; rfl)
      simp [hne]
  omega

lemma mem_fst_pathEdges : ∀ (q : List Nat) (x y : Nat),
    (x, y) ∈ pathEdges q → x ∈ q.dropLast
  | [], _, _ => by intro h; cases h
  | [_], _, _ => by intro h; cases h
  | a :: b :: rest, x, y => by
    intro h
    rw [pathEdges_cons₂] at h
    rw [show (a :: b :: rest).dropLast = a :: (b :: rest).dropLast from rfl]
    rcases List.mem_cons.1 h with h' | h'
    · rw [Prod.mk.injEq] at h'
      exact List.mem_cons.2 (Or.inl h'.1)
    · exact List.mem_cons.2 (Or.inr (mem_fst_pathEdges (b :: rest) x y h'))

lemma pathEdges_last_mem : ∀ (q : List Nat) (s : Nat), 2 ≤ q.length →
    q.getLast? = some s → ∃ x, x ∈ q ∧ (x, s) ∈ pathEdges q
  | [], _ => by intro h; simp at h
  | [_], _ => by intro h; simp at h
  | [a, b], s => by
    intro _ hlast
    simp at hlast
    exact ⟨a, by simp, by rw [hlast]; simp [pathEdges]⟩
  | a :: b :: c :: rest, s => by
    intro _ hlast
    obtain ⟨x, hxq, hx⟩ := pathEdges_last_mem (b :: c :: rest) s (by simp)
      (by simpa using hlast)
    exact ⟨x, List.mem_cons.2 (Or.inr hxq), by
      rw [pathEdges_cons₂]
      exact List.mem_cons.2 (Or.inr hx)⟩

lemma nodup_last_not_mem_dropLast {q : List Nat} {s : Nat} (hnd : q.Nodup)
    (hq : q ≠ []) (hlast : q.getLast? = some s) : s ∉ q.dropLast := by
  have hsplit : q.dropLast ++ [q.getLast hq] = q := List.dropLast_append_getLast hq
  have hs : q.getLast hq = s := by
    rw [List.getLast?_eq_getLast q hq] at hlast
    exact Option.some.inj hlast
  intro hmem
  rw [← hsplit] at hnd
  obtain ⟨-, -, hdisj⟩ := List.nodup_append.1 hnd
  exact hdisj hmem (by simp [hs])

lemma pathEdges_props {q : List Nat} {n : Nat} (hnd : q.Nodup) (hlt : ∀ x ∈ q, x < n) :
    ∀ e ∈ pathEdges q, e.1 < n ∧ e.2 < n ∧ e.1 ≠ e.2 := by
  intro e he
  obtain ⟨h1, h2⟩ := mem_pathEdges he
  exact ⟨hlt _ h1, hlt _ h2, pathEdges_ne hnd e he⟩

lemma colSum_applyAug_interior {q : List Nat} {n : Nat} {r : Mat} {f : Int} {w : Nat}
    (hWF : WFMat r n) (hnd : q.Nodup) (hlt : ∀ x ∈ q, x < n)
    (hq : q ≠ []) (hhead : q.head? ≠ some w) (hlast : q.getLast? ≠ some w) :
    colSum (applyAug r f q) n w = colSum r n w := by
  unfold applyAug
  rw [colSum_applyAugE f (pathEdges q) r hWF (pathEdges_props hnd hlt) w]
  rw [pathEdges_countP_fst, pathEdges_countP_snd]
  rw [countP_dropLast_tail hq hhead hlast]
  ring

lemma srcMeasure_applyAug_lt {q : List Nat} {n s : Nat} {r : Mat} {f : Int}
    (hWF : WFMat r n) (hnd : q.Nodup) (hlt : ∀ x ∈ q, x < n)
    (h2 : 2 ≤ q.length) (hlast : q.getLast? = some s)
    (hf1 : 1 ≤ f) (hres : ∀ e ∈ pathEdges q, f ≤ getE r e.2 e.1) :
    srcMeasure (applyAug r f q) n s < srcMeasure r n s := by
  have hq : q ≠ [] := by
    intro h
    rw [h] at h2
    simp at h2
  have hfst : ∀ e ∈ pathEdges q, e.1 ≠ s := by
    intro e he hcontra
    obtain ⟨a, b⟩ := e
    have hmem := mem_fst_pathEdges q a b he
    have hca : a = s := hcontra
    rw [hca] at hmem
    exact nodup_last_not_mem_dropLast hnd hq hlast hmem
  have hrow : ∀ v, getE (applyAug r f q) s v =
      getE r s v - (if (v, s) ∈ pathEdges q then f else 0) :=
    applyAugE_row hWF (pathEdges_props hnd hlt) (pathEdges_pairwise hnd) hfst
  obtain ⟨x, hxq, hx⟩ := pathEdges_last_mem q s h2 hlast
  unfold srcMeasure
  apply Finset.sum_lt_sum
  · intro v _
    rw [hrow v]
    split_ifs with h
    · have hle : f ≤ getE r s v := hres _ h
      omega
    · omega
  · refine ⟨x, Finset.mem_range.2 (hlt x hxq), ?_⟩
    rw [hrow x, if_pos hx]
    have hle : f ≤ getE r s x := hres _ hx
    omega

/-! ### The main loop -/

lemma WFMat_applyAugE_any {n : Nat} (f : Int) :
    ∀ (E : List (Nat × Nat)) (r : Mat), WFMat r n → WFMat (applyAugE f E r) n := by
  intro E
  induction E with
  | nil => intro r h; exact h
  | cons e E ih => intro r h; exact ih _ (WFMat_applyStep h f e)

lemma found_s_lt {r : Mat} {n s t : Nat} (hWF : WFMat r n)
    (hfound : (bfs r n s t).1 = true) : s < n := by
  by_contra h
  rw [bfs_ge hWF (by omega)] at hfound
  simp at hfound

lemma pathEdges_ne_nil {q : List Nat} (h2 : 2 ≤ q.length) : pathEdges q ≠ [] := by
  cases q with
  | nil => simp at h2
  | cons a q' =>
    cases q' with
    | nil => simp at h2
    | cons b rest =>
      rw [pathEdges_cons₂]
      simp

lemma pathFlow_pos {r : Mat} {q : List Nat} (h2 : 2 ≤ q.length)
    (hpos : ∀ e ∈ pathEdges q, 0 < getE r e.2 e.1) : 1 ≤ pathFlow r q := by
  unfold pathFlow pathResiduals
  apply le_minList
  · intro hcontra
    exact pathEdges_ne_nil h2 (List.map_eq_nil_iff.1 hcontra)
  · intro x hx
    obtain ⟨e, he, rfl⟩ := List.mem_map.1 hx
    have := hpos e he
    omega

lemma pathFlow_le {r : Mat} {q : List Nat} :
    ∀ e ∈ pathEdges q, pathFlow r q ≤ getE r e.2 e.1 := by
  intro e he
  exact minList_le (List.mem_map_of_mem _ he)

/-- Analysis of one main-loop iteration: either the state is unchanged
(no augmenting path), or BFS found a path with all the structure the
invariants need. -/
lemma ekStepFn_cases {n s t : Nat} (st : Mat × Int) (hWF : WFMat st.1 n) :
    ekStepFn n s t st = st ∨
    ∃ q, q.Nodup ∧ (∀ x ∈ q, x < n) ∧ q.head? = some t ∧ q.getLast? = some s ∧
      2 ≤ q.length ∧ (∀ e ∈ pathEdges q, 0 < getE st.1 e.2 e.1) ∧
      1 ≤ pathFlow st.1 q ∧ (∀ e ∈ pathEdges q, pathFlow st.1 q ≤ getE st.1 e.2 e.1) ∧
      ekStepFn n s t st = (applyAug st.1 (pathFlow st.1 q) q, st.2 + pathFlow st.1 q) ∧
      srcMeasure (applyAug st.1 (pathFlow st.1 q) q) n s < srcMeasure st.1 n s := by
  obtain ⟨r, mf⟩ := st
  cases hfound : (bfs r n s t).1 with
  | false =>
    left
    unfold ekStepFn
    simp [hfound]
  | true =>
    have hs : s < n := found_s_lt hWF hfound
    obtain ⟨q, hwalk, hnd, hlt, hhead, hlast, h2, hpos⟩ := bfs_path hs hfound
    have hf1 : 1 ≤ pathFlow r q := pathFlow_pos h2 hpos
    have hle : ∀ e ∈ pathEdges q, pathFlow r q ≤ getE r e.2 e.1 := pathFlow_le
    right
    refine ⟨q, hnd, hlt, hhead, hlast, h2, hpos, hf1, hle, ?_, ?_⟩
    · unfold ekStepFn
      simp [hfound, hwalk]
    · exact srcMeasure_applyAug_lt hWF hnd hlt h2 hlast hf1 hle

lemma ekLoop_succ (n s t fuel : Nat) (r : Mat) (mf : Int) :
    ekLoop n s t (fuel+1) r mf =
      if (bfs r n s t).1 then
        (match walk (bfs r n s t).2 s n t with
         | some q => ekLoop n s t fuel (applyAug r (pathFlow r q) q) (mf + pathFlow r q)
         | none => (r, mf))
      else (r, mf) := rfl

lemma ekStepFn_eq (n s t : Nat) (r : Mat) (mf : Int) :
    ekStepFn n s t (r, mf) =
      if (bfs r n s t).1 then
        (match walk (bfs r n s t).2 s n t with
         | some q => (applyAug r (pathFlow r q) q, mf + pathFlow r q)
         | none => (r, mf))
      else (r, mf) := rfl

/-- The fueled main loop visits exactly the iterates of the step
function (once the loop would stop, the step function is the
identity). -/
lemma ekLoop_eq_iterate (n s t : Nat) : ∀ (fuel : Nat) (r : Mat) (mf : Int),
    ekLoop n s t fuel r mf = (ekStepFn n s t)^[fuel] (r, mf) := by
  intro fuel
  induction fuel with
  | zero => intro r mf; rfl
  | succ fuel ih =>
    intro r mf
    have e1 := ekLoop_succ n s t fuel r mf
    have e2 := ekStepFn_eq n s t r mf
    cases hfound : (bfs r n s t).1 with
    | false =>
      rw [hfound] at e1 e2
      rw [if_neg (by simp : ¬((false : Bool) = true))] at e1 e2
      rw [e1, Function.iterate_succ_apply, e2, Function.iterate_fixed e2]
    | true =>
      rw [hfound] at e1 e2
      rw [if_pos rfl] at e1 e2
      cases hwalk : walk (bfs r n s t).2 s n t with
      | none =>
        rw [hwalk] at e1 e2
        have e1' : ekLoop n s t (fuel+1) r mf = (r, mf) := e1.trans rfl
        have e2' : ekStepFn n s t (r, mf) = (r, mf) := e2.trans rfl
        rw [e1', Function.iterate_succ_apply, e2', Function.iterate_fixed e2']
      | some q =>
        rw [hwalk] at e1 e2
        have e1' : ekLoop n s t (fuel+1) r mf =
            ekLoop n s t fuel (applyAug r (pathFlow r q) q) (mf + pathFlow r q) :=
          e1.trans rfl
        have e2' : ekStepFn n s t (r, mf) =
            (applyAug r (pathFlow r q) q, mf + pathFlow r q) := e2.trans rfl
        rw [e1', ih, Function.iterate_succ_apply, e2']

/-- Fuel-sufficiency of the main loop: with more fuel than the total
positive residual capacity leaving the source, the result no longer
depends on the fuel — the `while bfs()` loop of the source terminates. -/
lemma ekLoop_stable {n s t : Nat} : ∀ (fuel : Nat) (r : Mat) (mf : Int), WFMat r n →
    srcMeasure r n s < fuel → ∀ k, ekLoop n s t (fuel + k) r mf = ekLoop n s t fuel r mf := by
  intro fuel
  induction fuel with
  | zero =>
    intro r mf _ hm
    exact absurd hm (by omega)
  | succ fuel ih =>
    intro r mf hWF hm k
    have hsucc : fuel + 1 + k = (fuel + k) + 1 := by omega
    rw [hsucc]
    have e1 := ekLoop_succ n s t fuel r mf
    have e0 := ekLoop_succ n s t (fuel + k) r mf
    cases hfound : (bfs r n s t).1 with
    | false =>
      rw [hfound, if_neg (by simp : ¬((false : Bool) = true))] at e1 e0
      rw [e1, e0]
    | true =>
      rw [hfound, if_pos rfl] at e1 e0
      cases hwalk : walk (bfs r n s t).2 s n t with
      | none =>
        rw [hwalk] at e1 e0
        have e1' : ekLoop n s t (fuel+1) r mf = (r, mf) := e1.trans rfl
        have e0' : ekLoop n s t ((fuel+k)+1) r mf = (r, mf) := e0.trans rfl
        rw [e1', e0']
      | some q =>
        rw [hwalk] at e1 e0
        have e1' : ekLoop n s t (fuel+1) r mf =
            ekLoop n s t fuel (applyAug r (pathFlow r q) q) (mf + pathFlow r q) :=
          e1.trans rfl
        have e0' : ekLoop n s t ((fuel+k)+1) r mf =
            ekLoop n s t (fuel+k) (applyAug r (pathFlow r q) q) (mf + pathFlow r q) :=
          e0.trans rfl
        rw [e1', e0']
        have hs : s < n := found_s_lt hWF hfound
        obtain ⟨q₀, hwalk₀, hnd, hlt, hhead, hlast, h2, hpos⟩ := bfs_path hs hfound
        have hqq : q₀ = q := by
          rw [hwalk₀] at hwalk
          exact Option.some.inj hwalk
        subst hqq
        have hf1 : 1 ≤ pathFlow r q₀ := pathFlow_pos h2 hpos
        have hWF' : WFMat (applyAug r (pathFlow r q₀) q₀) n :=
          WFMat_applyAugE_any _ _ _ hWF
        have hdec : srcMeasure (applyAug r (pathFlow r q₀) q₀) n s < srcMeasure r n s :=
          srcMeasure_applyAug_lt hWF hnd hlt h2 hlast hf1 pathFlow_le
        exact ih _ _ hWF' (by omega) k

/-! ### Remaining support lemmas -/

lemma copyTable_eq (c : Mat) : copyTable c = c := by
  simp [copyTable]

lemma foldl_toNat (row : List Int) : ∀ (a : Nat),
    row.foldl (fun a x => a + x.toNat) a = a + (row.map Int.toNat).sum := by
  induction row with
  | nil => intro a; simp
  | cons x xs ih =>
    intro a
    simp only [List.foldl_cons, List.map_cons, List.sum_cons]
    rw [ih]
    omega

lemma sum_getD_toNat_le (row : List Int) : ∀ (m : Nat),
    (∑ v ∈ Finset.range m, (row.getD v 0).toNat) ≤ (row.map Int.toNat).sum := by
  induction row with
  | nil =>
    intro m
    simp [List.getD]
  | cons x xs ih =>
    intro m
    cases m with
    | zero => simp
    | succ k =>
      rw [Finset.sum_range_succ']
      have h0 : (((x :: xs).getD 0 0).toNat) = x.toNat := rfl
      have hstep : ∀ v : Nat, ((x :: xs).getD (v+1) 0) = xs.getD v 0 := fun v => rfl
      simp only [hstep, h0]
      have := ih k
      simp only [List.map_cons, List.sum_cons]
      omega

lemma srcMeasure_lt_ekFuel (c : Mat) (s : Nat) :
    srcMeasure c c.length s < ekFuel c s := by
  unfold srcMeasure ekFuel rowFuel
  rw [foldl_toNat]
  have hle := sum_getD_toNat_le (c.getD s []) c.length
  have heq : (∑ v ∈ Finset.range c.length, (getE c s v).toNat) =
      ∑ v ∈ Finset.range c.length, ((c.getD s []).getD v 0).toNat := rfl
  omega

lemma iterate_inv {n s t : Nat} {P : Mat × Int → Prop}
    (hstep : ∀ st, P st → P (ekStepFn n s t st)) :
    ∀ (k : Nat) (st : Mat × Int), P st → P ((ekStepFn n s t)^[k] st) := by
  intro k
  induction k with
  | zero => intro st h; exact h
  | succ k ih =>
    intro st h
    rw [Function.iterate_succ_apply]
    exact ih _ (hstep _ h)

lemma nonneg_global {r : Mat} {n : Nat} (hWF : WFMat r n)
    (h : ∀ u v, u < n → v < n → 0 ≤ getE r u v) : ∀ u v, 0 ≤ getE r u v := by
  intro u v
  by_cases hu : u < n
  · by_cases hv : v < n
    · exact h u v hu hv
    · unfold getE
      rw [getD_eq_of_le (by rw [row_length hWF hu]; omega)]
  · unfold getE
    rw [getD_eq_of_le (show r.length ≤ u from by rw [hWF.1]; omega)]
    simp

lemma getD_map_range {α : Type} (g : Nat → α) {n u : Nat} (hu : u < n) (d : α) :
    ((List.range n).map g).getD u d = g u := by
  rw [List.getD_eq_getElem?_getD, List.getElem?_map, List.getElem?_range hu]
  rfl

lemma getE_forwardNew (c r : Mat) {u v : Nat} (hu : u < c.length) (hv : v < c.length) :
    getE (codeNew.compute_forward_flow c r) u v =
      if 0 < getE c u v then max 0 (getE c u v - getE r u v) else 0 := by
  unfold codeNew.compute_forward_flow getE
  rw [getD_map_range _ hu, getD_map_range _ hv]

lemma getE_forwardFinal (c r : Mat) {u v : Nat} (hu : u < c.length) (hv : v < c.length) :
    getE (codeFinal.compute_forward_flow c r) u v =
      if 0 < getE c u v then getE c u v - getE r u v else 0 := by
  unfold codeFinal.compute_forward_flow getE
  rw [getD_map_range _ hu, getD_map_range _ hv]

lemma max_sub_max_neg (x : Int) : max 0 x - max 0 (-x) = x := by
  rcases le_total 0 x with h | h
  · rw [max_eq_right h, max_eq_left (by linarith)]
    ring
  · rw [max_eq_left h, max_eq_right (by linarith)]
    ring

/-- Preservation of the residual invariants by one main-loop step:
well-formedness, the pairwise-sum identity, entrywise non-negativity,
and conservation of column sums at interior nodes. -/
lemma ekInv_preserved {n s t : Nat} {c : Mat}
    (st : Mat × Int)
    (h : WFMat st.1 n ∧
      (∀ u v, getE st.1 u v + getE st.1 v u = getE c u v + getE c v u) ∧
      (∀ u v, 0 ≤ getE st.1 u v) ∧
      (∀ w, w < n → w ≠ s → w ≠ t → colSum st.1 n w = colSum c n w)) :
    WFMat (ekStepFn n s t st).1 n ∧
      (∀ u v, getE (ekStepFn n s t st).1 u v + getE (ekStepFn n s t st).1 v u =
        getE c u v + getE c v u) ∧
      (∀ u v, 0 ≤ getE (ekStepFn n s t st).1 u v) ∧
      (∀ w, w < n → w ≠ s → w ≠ t →
        colSum (ekStepFn n s t st).1 n w = colSum c n w) := by
  obtain ⟨hWF, hpair, hpos, hcol⟩ := h
  rcases ekStepFn_cases st hWF with heq |
    ⟨q, hnd, hlt, hhead, hlast, h2, hposE, hf1, hle, heq, hdec⟩
  · rw [heq]
    exact ⟨hWF, hpair, hpos, hcol⟩
  · rw [heq]
    have hq : q ≠ [] := by
      intro hcontra
      rw [hcontra] at h2
      simp at h2
    refine ⟨WFMat_applyAugE_any _ _ _ hWF, ?_, ?_, ?_⟩
    · intro u v
      have hps := applyAugE_pairSum (pathFlow st.1 q) (pathEdges q) st.1 hWF
        (pathEdges_props hnd hlt) u v
      rw [show applyAug st.1 (pathFlow st.1 q) q =
        applyAugE (pathFlow st.1 q) (pathEdges q) st.1 from rfl]
      rw [hps]
      exact hpair u v
    · intro u v
      exact applyAugE_nonneg hWF (pathEdges_props hnd hlt) (pathEdges_pairwise hnd)
        (by omega) hle hpos u v
    · intro w hw hws hwt
      rw [colSum_applyAug_interior hWF hnd hlt hq
        (by rw [hhead]; intro hcontra; exact hwt (Option.some.inj hcontra).symm)
        (by rw [hlast]; intro hcontra; exact hws (Option.some.inj hcontra).symm)]
      exact hcol w hw hws hwt

/-- The invariants hold of the final residual table of `edmonds_karp`
on any square table with non-negative entries. -/
lemma edmonds_karp_invariants {c : Mat} (hsq : WFMat c c.length)
    (hnn : ∀ u v, 0 ≤ getE c u v) (s t : Nat) :
    WFMat (edmonds_karp c s t).1 c.length ∧
    (∀ u v, 0 ≤ getE (edmonds_karp c s t).1 u v) ∧
    (∀ u v, getE (edmonds_karp c s t).1 u v + getE (edmonds_karp c s t).1 v u =
      getE c u v + getE c v u) ∧
    (∀ w, w < c.length → w ≠ s → w ≠ t →
      colSum (edmonds_karp c s t).1 c.length w = colSum c c.length w) := by
  have hek : edmonds_karp c s t = (ekStepFn c.length s t)^[ekFuel c s] (c, 0) := by
    show ekLoop c.length s t (ekFuel c s) (copyTable c) 0 = _
    rw [copyTable_eq, ekLoop_eq_iterate]
  rw [hek]
  have hinv := iterate_inv (P := fun st => WFMat st.1 c.length ∧
      (∀ u v, getE st.1 u v + getE st.1 v u = getE c u v + getE c v u) ∧
      (∀ u v, 0 ≤ getE st.1 u v) ∧
      (∀ w, w < c.length → w ≠ s → w ≠ t → colSum st.1 c.length w = colSum c c.length w))
    (fun st h => ekInv_preserved st h) (ekFuel c s) (c, 0)
    ⟨hsq, fun u v => rfl, hnn, fun w _ _ _ => rfl⟩
  exact ⟨hinv.1, hinv.2.2.1, hinv.2.1, hinv.2.2.2⟩

/-! ### Claims -/

/-- Supporting fact: on the example table that the source files actually
run (which has the extra edge `v1 → t = 4`, row `[0, 0, 10, 12, 4]`),
the solver computes maximum flow 29. -/
lemma exampleCapacity_maxflow : (edmonds_karp exampleCapacity 0 4).2 = 29 := rfl

/-- C1 (counterexample): on exactly the capacity table listed by spec
scenario 1 (edges s→v1=16, s→v2=13, v1→v2=10, v1→v3=12, v2→v1=4,
v2→t=14, v3→v2=9, v3→t=20), `edmonds_karp` returns maxFlowValue 26,
not 23 as the spec expects. -/
theorem scenario1_maxflow_not_23 :
    (edmonds_karp scenario1Capacity 0 4).2 = 26 ∧
    (edmonds_karp scenario1Capacity 0 4).2 ≠ 23 :=
  ⟨rfl, by intro h; rw [show (edmonds_karp scenario1Capacity 0 4).2 = 26 from rfl] at h; cases h⟩

/-- C1 (amended): running the solver on the capacity table of spec
scenario 1 returns maxFlowValue 26 (the minimum cut `{s, v1, v2}` of
that table has capacity 12 + 14 = 26; the spec's expected 23 is the
answer to the six-node CLRS network, not to this five-node one). -/
theorem scenario1_maxflow_eq_26 : (edmonds_karp scenario1Capacity 0 4).2 = 26 := rfl

/-- C2 (counterexample): the solver performs no input validation.
With `source == sink` (in range) it returns a complete FlowResult —
the untouched residual copy and maxFlowValue 0 — and with a negative
capacity entry it likewise runs to completion and returns a result,
in both cases without any failure. -/
theorem invalid_input_returns_result :
    edmonds_karp [[0, 5], [0, 0]] 0 0 = ([[0, 5], [0, 0]], 0) ∧
    edmonds_karp [[0, -3], [0, 0]] 0 1 = ([[0, -3], [0, 0]], 0) :=
  ⟨rfl, rfl⟩

/-- C2 (amended): `edmonds_karp` does not validate its input: for every
capacity table and every in-range source equal to the sink, it returns
the residual table equal to the capacity table and maxFlowValue 0
instead of failing (BFS can never re-mark the already-marked source,
so no augmenting path is ever reported). -/
theorem source_eq_sink_returns_zero_flow (c : Mat) (s : Nat) (hs : s < c.length) :
    edmonds_karp c s s = (c, 0) := by
  show ekLoop c.length s s (ekFuel c s) (copyTable c) 0 = (c, 0)
  rw [copyTable_eq]
  obtain ⟨F, hF⟩ : ∃ F, ekFuel c s = F + 1 :=
    ⟨rowFuel (c.getD s []), by unfold ekFuel; omega⟩
  rw [hF, ekLoop_succ]
  have hfalse : (bfs c c.length s s).1 = false := by
    cases hb : (bfs c c.length s s).1 with
    | false => rfl
    | true =>
      obtain ⟨-, hne, -⟩ := (bfs_spec (r := c) (t := s) hs).2 hb
      exact absurd rfl hne
  rw [hfalse, if_neg (by simp : ¬((false : Bool) = true))]

/-- C2 (witness): the amended statement at the concrete one-node table. -/
theorem source_eq_sink_returns_zero_flow_witness :
    0 < List.length [[(0 : Int)]] ∧ edmonds_karp [[(0 : Int)]] 0 0 = ([[(0 : Int)]], 0) :=
  ⟨by decide, source_eq_sink_returns_zero_flow [[(0 : Int)]] 0 (by decide)⟩

/-- C3 (counterexample): on the valid network with antiparallel edges
`s→w = 1, w→s = 5, w→t = 1` (source 0, sink 2), the edge `w→s` has
positive capacity but the unclamped derivation of codeFinal.py computes
`capacity[1][0] - residual[1][0] = 5 - 6 = -1 < 0`: pushing flow on
`s→w` raises the reverse residual `residual[1][0]` above the original
capacity, so `0 ≤ realizedFlow` fails for the unclamped derivation. -/
theorem unclamped_flow_negative_on_antiparallel :
    0 < getE [[0, 1, 0], [5, 0, 1], [0, 0, 0]] 1 0 ∧
    getE (codeFinal.compute_forward_flow [[0, 1, 0], [5, 0, 1], [0, 0, 0]]
      (edmonds_karp [[0, 1, 0], [5, 0, 1], [0, 0, 0]] 0 2).1) 1 0 = -1 :=
  ⟨by decide, rfl⟩

/-- C3 (amended): for every valid network (square table, non-negative
entries), the clamped derivation of codeNew.py applied to the solver's
final residual table satisfies `0 ≤ realizedFlow[u][v] ≤ capacity[u][v]`
for all in-range pairs; the unclamped derivation of codeFinal.py can
return negative values when antiparallel edges carry cancelling flow. -/
theorem clamped_flow_within_capacity (c : Mat) (s t : Nat)
    (hsq : WFMat c c.length)
    (hnn : ∀ u, u < c.length → ∀ v, v < c.length → 0 ≤ getE c u v) :
    ∀ u v, u < c.length → v < c.length →
      0 ≤ getE (codeNew.compute_forward_flow c (edmonds_karp c s t).1) u v ∧
      getE (codeNew.compute_forward_flow c (edmonds_karp c s t).1) u v ≤ getE c u v := by
  have hnn' := nonneg_global hsq (fun u v hu hv => hnn u hu v hv)
  obtain ⟨hWF, hpos, hpair, hcol⟩ := edmonds_karp_invariants hsq hnn' s t
  intro u v hu hv
  rw [getE_forwardNew c _ hu hv]
  split_ifs with h
  · refine ⟨le_max_left _ _, ?_⟩
    have h1 := hpos u v
    have h2 := hnn u hu v hv
    exact max_le h2 (by linarith)
  · exact ⟨le_refl 0, hnn u hu v hv⟩

/-- C3 (witness): the amended statement at a concrete two-node network. -/
theorem clamped_flow_within_capacity_witness :
    (WFMat [[0, 2], [0, 0]] (List.length [[(0 : Int), 2], [0, 0]]) ∧
      (∀ u : Nat, u < List.length [[(0 : Int), 2], [0, 0]] →
        ∀ v : Nat, v < List.length [[(0 : Int), 2], [0, 0]] → 0 ≤ getE [[0, 2], [0, 0]] u v) ∧
      0 < List.length [[(0 : Int), 2], [0, 0]]) ∧
    (0 ≤ getE (codeNew.compute_forward_flow [[0, 2], [0, 0]]
        (edmonds_karp [[0, 2], [0, 0]] 0 1).1) 0 1 ∧
      getE (codeNew.compute_forward_flow [[0, 2], [0, 0]]
        (edmonds_karp [[0, 2], [0, 0]] 0 1).1) 0 1 ≤ getE [[0, 2], [0, 0]] 0 1) :=
  ⟨⟨⟨by decide, by decide⟩, by decide, by decide⟩,
    clamped_flow_within_capacity [[0, 2], [0, 0]] 0 1 ⟨by decide, by decide⟩
      (by decide) 0 1 (by decide) (by decide)⟩

/-- C4: for every valid network (square, non-negative entries) and
every node `w` other than source and sink, total realized inflow equals
total realized outflow, where the realized flow is derived from the
solver's final residual table by codeNew.py's `compute_forward_flow`. -/
theorem clamped_flow_conservation (c : Mat) (s t w : Nat)
    (hsq : WFMat c c.length)
    (hnn : ∀ u, u < c.length → ∀ v, v < c.length → 0 ≤ getE c u v)
    (hw : w < c.length) (hws : w ≠ s) (hwt : w ≠ t) :
    (∑ u ∈ Finset.range c.length,
        getE (codeNew.compute_forward_flow c (edmonds_karp c s t).1) u w) =
    (∑ v ∈ Finset.range c.length,
        getE (codeNew.compute_forward_flow c (edmonds_karp c s t).1) w v) := by
  have hnn' := nonneg_global hsq (fun u v hu hv => hnn u hu v hv)
  obtain ⟨hWF, hpos, hpair, hcol⟩ := edmonds_karp_invariants hsq hnn' s t
  have hptw : ∀ u ∈ Finset.range c.length,
      getE (codeNew.compute_forward_flow c (edmonds_karp c s t).1) u w -
        getE (codeNew.compute_forward_flow c (edmonds_karp c s t).1) w u =
      getE c u w - getE (edmonds_karp c s t).1 u w := by
    intro u hu
    have hu' := Finset.mem_range.1 hu
    rw [getE_forwardNew c _ hu' hw, getE_forwardNew c _ hw hu']
    have hp := hpair u w
    have h1 := hpos u w
    have h2 := hpos w u
    have hc1 := hnn u hu' w hw
    have hc2 := hnn w hw u hu'
    by_cases hcu : 0 < getE c u w
    · by_cases hcw : 0 < getE c w u
      · rw [if_pos hcu, if_pos hcw]
        have hx : getE c w u - getE (edmonds_karp c s t).1 w u =
            -(getE c u w - getE (edmonds_karp c s t).1 u w) := by linarith
        rw [hx, max_sub_max_neg]
      · rw [if_pos hcu, if_neg hcw]
        have hcz : getE c w u = 0 := le_antisymm (not_lt.1 hcw) hc2
        rw [max_eq_right (by linarith)]
        ring
    · by_cases hcw : 0 < getE c w u
      · rw [if_neg hcu, if_pos hcw]
        have hcz : getE c u w = 0 := le_antisymm (not_lt.1 hcu) hc1
        rw [max_eq_right (by linarith)]
        linarith
      · rw [if_neg hcu, if_neg hcw]
        have hcz1 : getE c u w = 0 := le_antisymm (not_lt.1 hcu) hc1
        have hcz2 : getE c w u = 0 := le_antisymm (not_lt.1 hcw) hc2
        have hz : getE (edmonds_karp c s t).1 u w = 0 := by linarith
        linarith
  have hsum : (∑ u ∈ Finset.range c.length,
      (getE (codeNew.compute_forward_flow c (edmonds_karp c s t).1) u w -
        getE (codeNew.compute_forward_flow c (edmonds_karp c s t).1) w u)) =
      ∑ u ∈ Finset.range c.length,
        (getE c u w - getE (edmonds_karp c s t).1 u w) :=
    Finset.sum_congr rfl hptw
  rw [Finset.sum_sub_distrib, Finset.sum_sub_distrib] at hsum
  have hz : colSum (edmonds_karp c s t).1 c.length w = colSum c c.length w :=
    hcol w hw hws hwt
  have e1 : colSum (edmonds_karp c s t).1 c.length w =
      ∑ u ∈ Finset.range c.length, getE (edmonds_karp c s t).1 u w := rfl
  have e2 : colSum c c.length w = ∑ u ∈ Finset.range c.length, getE c u w := rfl
  rw [e1, e2] at hz
  linarith

/-- C4 (witness): conservation at the interior node of the chain
network `0 → 1 → 2` with unit capacities. -/
theorem clamped_flow_conservation_witness :
    (WFMat [[0, 1, 0], [0, 0, 1], [0, 0, 0]] (List.length [[(0:Int), 1, 0], [0, 0, 1], [0, 0, 0]]) ∧
      (∀ u : Nat, u < List.length [[(0:Int), 1, 0], [0, 0, 1], [0, 0, 0]] →
        ∀ v : Nat, v < List.length [[(0:Int), 1, 0], [0, 0, 1], [0, 0, 0]] →
          0 ≤ getE [[0, 1, 0], [0, 0, 1], [0, 0, 0]] u v) ∧
      1 < List.length [[(0:Int), 1, 0], [0, 0, 1], [0, 0, 0]] ∧ (1 : Nat) ≠ 0 ∧ (1 : Nat) ≠ 2) ∧
    (∑ u ∈ Finset.range (List.length [[(0:Int), 1, 0], [0, 0, 1], [0, 0, 0]]),
        getE (codeNew.compute_forward_flow [[0, 1, 0], [0, 0, 1], [0, 0, 0]]
          (edmonds_karp [[0, 1, 0], [0, 0, 1], [0, 0, 0]] 0 2).1) u 1) =
    (∑ v ∈ Finset.range (List.length [[(0:Int), 1, 0], [0, 0, 1], [0, 0, 0]]),
        getE (codeNew.compute_forward_flow [[0, 1, 0], [0, 0, 1], [0, 0, 0]]
          (edmonds_karp [[0, 1, 0], [0, 0, 1], [0, 0, 0]] 0 2).1) 1 v) :=
  ⟨⟨⟨by decide, by decide⟩, by decide, by decide, by decide, by decide⟩,
    clamped_flow_conservation [[0, 1, 0], [0, 0, 1], [0, 0, 0]] 0 2 1
      ⟨by decide, by decide⟩ (by decide) (by decide) (by decide) (by decide)⟩

/-- Preservation of well-formedness and the pairwise-sum identity
alone (used for the claim that needs no non-negativity hypothesis). -/
lemma ekPair_preserved {n s t : Nat} {c : Mat} (st : Mat × Int)
    (h : WFMat st.1 n ∧
      ∀ u v, getE st.1 u v + getE st.1 v u = getE c u v + getE c v u) :
    WFMat (ekStepFn n s t st).1 n ∧
      ∀ u v, getE (ekStepFn n s t st).1 u v + getE (ekStepFn n s t st).1 v u =
        getE c u v + getE c v u := by
  obtain ⟨hWF, hpair⟩ := h
  rcases ekStepFn_cases st hWF with heq |
    ⟨q, hnd, hlt, hhead, hlast, h2, hposE, hf1, hle, heq, hdec⟩
  · rw [heq]
    exact ⟨hWF, hpair⟩
  · rw [heq]
    refine ⟨WFMat_applyAugE_any _ _ _ hWF, ?_⟩
    intro u v
    have hps := applyAugE_pairSum (pathFlow st.1 q) (pathEdges q) st.1 hWF
      (pathEdges_props hnd hlt) u v
    rw [show applyAug st.1 (pathFlow st.1 q) q =
      applyAugE (pathFlow st.1 q) (pathEdges q) st.1 from rfl]
    rw [hps]
    exact hpair u v

/-- C5: at every point during solving — after each iteration of the
main loop, starting from the fresh residual copy — and in the final
result, the residual table satisfies
`residual[u][v] + residual[v][u] = capacity[u][v] + capacity[v][u]`
for every pair: each augmentation subtracts the bottleneck from a
forward entry and adds it to the mirror entry, so the residual graph
encodes remaining forward room plus cancelable reverse flow. -/
theorem residual_pair_sum_invariant (c : Mat) (s t : Nat) (hsq : WFMat c c.length) :
    (∀ k u v,
      getE (((ekStepFn c.length s t)^[k] (copyTable c, 0)).1) u v +
        getE (((ekStepFn c.length s t)^[k] (copyTable c, 0)).1) v u =
      getE c u v + getE c v u) ∧
    (∀ u v, getE (edmonds_karp c s t).1 u v + getE (edmonds_karp c s t).1 v u =
      getE c u v + getE c v u) := by
  have hcc : copyTable c = c := copyTable_eq c
  have hbase : WFMat (copyTable c, (0:Int)).1 c.length ∧
      ∀ u v, getE (copyTable c, (0:Int)).1 u v + getE (copyTable c, (0:Int)).1 v u =
        getE c u v + getE c v u := by
    constructor
    · show WFMat (copyTable c) c.length
      rw [hcc]
      exact hsq
    · intro u v
      show getE (copyTable c) u v + getE (copyTable c) v u = _
      rw [hcc]
  have hall := fun k => iterate_inv (s := s) (t := t)
    (fun st h => ekPair_preserved (s := s) (t := t) st h) k _ hbase
  refine ⟨fun k => (hall k).2, ?_⟩
  have hek : edmonds_karp c s t = (ekStepFn c.length s t)^[ekFuel c s] (copyTable c, 0) := by
    show ekLoop c.length s t (ekFuel c s) (copyTable c) 0 = _
    rw [ekLoop_eq_iterate]
  rw [hek]
  exact (hall _).2

/-- C5 (witness): the invariant at the scenario-1 network. -/
theorem residual_pair_sum_invariant_witness :
    WFMat scenario1Capacity (List.length scenario1Capacity) ∧
    (∀ u v,
      getE (edmonds_karp scenario1Capacity 0 4).1 u v +
        getE (edmonds_karp scenario1Capacity 0 4).1 v u =
      getE scenario1Capacity u v + getE scenario1Capacity v u) :=
  ⟨⟨by decide, by decide⟩,
    (residual_pair_sum_invariant scenario1Capacity 0 4 ⟨by decide, by decide⟩).2⟩

/-- C6: on every valid network the main loop terminates — the fueled
rendering of `while bfs():` is already stable at the fuel `edmonds_karp`
uses, so adding any amount of fuel leaves the result unchanged — and
each iteration either finds no augmenting path and leaves the state
untouched, or finds a path whose bottleneck is strictly positive and
strictly increases maxFlowValue; the strict decrease of the positive
residual out of the source (`srcMeasure`) bounds the number of such
increases. -/
theorem main_loop_terminates (c : Mat) (s t : Nat)
    (hsq : WFMat c c.length)
    (hnn : ∀ u, u < c.length → ∀ v, v < c.length → 0 ≤ getE c u v)
    (hs : s < c.length) (ht : t < c.length) (hst : s ≠ t) :
    (∀ k, ekLoop c.length s t (ekFuel c s + k) (copyTable c) 0 = edmonds_karp c s t) ∧
    (∀ (r : Mat) (mf : Int), WFMat r c.length →
      ((bfs r c.length s t).1 = false → ekStepFn c.length s t (r, mf) = (r, mf)) ∧
      ((bfs r c.length s t).1 = true → ∃ q,
        walk (bfs r c.length s t).2 s c.length t = some q ∧
        0 < pathFlow r q ∧
        ekStepFn c.length s t (r, mf) =
          (applyAug r (pathFlow r q) q, mf + pathFlow r q) ∧
        mf < mf + pathFlow r q)) := by
  constructor
  · intro k
    show _ = ekLoop c.length s t (ekFuel c s) (copyTable c) 0
    rw [copyTable_eq]
    exact ekLoop_stable (ekFuel c s) c 0 hsq (srcMeasure_lt_ekFuel c s) k
  · intro r mf hWF
    constructor
    · intro hfalse
      rw [ekStepFn_eq, hfalse, if_neg (by simp : ¬((false : Bool) = true))]
    · intro htrue
      have hsn := found_s_lt hWF htrue
      obtain ⟨q, hwalk, hnd, hlt, hhead, hlast, h2, hposE⟩ := bfs_path hsn htrue
      have hf1 := pathFlow_pos h2 hposE
      refine ⟨q, hwalk, by omega, ?_, by omega⟩
      rw [ekStepFn_eq, htrue, if_pos rfl, hwalk]

/-- C6 (witness): termination facts at the scenario-1 network. -/
theorem main_loop_terminates_witness :
    (WFMat scenario1Capacity (List.length scenario1Capacity) ∧
      (∀ u : Nat, u < List.length scenario1Capacity →
        ∀ v : Nat, v < List.length scenario1Capacity →
          0 ≤ getE scenario1Capacity u v) ∧
      0 < List.length scenario1Capacity ∧ 4 < List.length scenario1Capacity ∧
      (0 : Nat) ≠ 4) ∧
    (∀ k, ekLoop (List.length scenario1Capacity) 0 4
        (ekFuel scenario1Capacity 0 + k) (copyTable scenario1Capacity) 0 =
      edmonds_karp scenario1Capacity 0 4) :=
  ⟨⟨⟨by decide, by decide⟩, by decide, by decide, by decide, by decide⟩,
    (main_loop_terminates scenario1Capacity 0 4 ⟨by decide, by decide⟩
      (by decide) (by decide) (by decide) (by decide)).1⟩

/-- C7: the solver never mutates the caller's capacity table.  In the
heap-explicit rendering the capacity table after the call is the one
passed in; the residual state is initialised from `copyTable` — an
element-wise copy equal, entry for entry, to the input — and all
further writes target that copy, so the result is an independent
value. -/
theorem capacity_not_mutated (c : Mat) (s t : Nat) :
    (edmonds_karpHeap c s t).1 = c ∧
    (edmonds_karpHeap c s t).2 = edmonds_karp c s t ∧
    copyTable c = c :=
  ⟨rfl, rfl, copyTable_eq c⟩

/-- C8: the solver is deterministic — two invocations on entrywise
identical capacity tables with the same source and sink return the same
maxFlowValue and the same residual table. -/
theorem solver_deterministic (c₁ c₂ : Mat) (s₁ s₂ t₁ t₂ : Nat)
    (hc : c₁ = c₂) (hs : s₁ = s₂) (ht : t₁ = t₂) :
    (edmonds_karp c₁ s₁ t₁).2 = (edmonds_karp c₂ s₂ t₂).2 ∧
    (edmonds_karp c₁ s₁ t₁).1 = (edmonds_karp c₂ s₂ t₂).1 := by
  subst hc
  subst hs
  subst ht
  exact ⟨rfl, rfl⟩

/-- C8 (witness): determinism at the scenario-1 network. -/
theorem solver_deterministic_witness :
    scenario1Capacity = scenario1Capacity ∧ (0 : Nat) = 0 ∧ (4 : Nat) = 4 ∧
    ((edmonds_karp scenario1Capacity 0 4).2 = (edmonds_karp scenario1Capacity 0 4).2 ∧
      (edmonds_karp scenario1Capacity 0 4).1 = (edmonds_karp scenario1Capacity 0 4).1) :=
  ⟨rfl, rfl, rfl, solver_deterministic scenario1Capacity scenario1Capacity 0 0 4 4 rfl rfl rfl⟩

/-- C9: the three `edmonds_karp` definitions of code.py, codeNew.py and
codeFinal.py are extensionally equal — the Python sources are textually
identical, and so are their embeddings. -/
theorem variants_extensionally_equal (c : Mat) (s t : Nat) :
    codeNew.edmonds_karp c s t = edmonds_karp c s t ∧
    codeFinal.edmonds_karp c s t = edmonds_karp c s t :=
  ⟨rfl, rfl⟩

/-- C10: on a capacity table with non-negative entries, every entry of
the residual table is non-negative after every iteration of the main
loop and in the returned result: BFS only traverses edges of strictly
positive residual, the bottleneck is the minimum residual along the
path, so forward updates never overdraw and reverse updates only add a
positive amount. -/
theorem residual_nonneg_invariant (c : Mat) (s t : Nat)
    (hsq : WFMat c c.length)
    (hnn : ∀ u, u < c.length → ∀ v, v < c.length → 0 ≤ getE c u v) :
    (∀ k u v, 0 ≤ getE (((ekStepFn c.length s t)^[k] (copyTable c, 0)).1) u v) ∧
    (∀ u v, 0 ≤ getE (edmonds_karp c s t).1 u v) := by
  have hnn' := nonneg_global hsq (fun u v hu hv => hnn u hu v hv)
  have hcc : copyTable c = c := copyTable_eq c
  have hstep : ∀ st : Mat × Int,
      (WFMat st.1 c.length ∧ ∀ u v, 0 ≤ getE st.1 u v) →
      (WFMat (ekStepFn c.length s t st).1 c.length ∧
        ∀ u v, 0 ≤ getE (ekStepFn c.length s t st).1 u v) := by
    intro st h
    obtain ⟨hWF, hpos⟩ := h
    rcases ekStepFn_cases st hWF with heq |
      ⟨q, hnd, hlt, hhead, hlast, h2, hposE, hf1, hle, heq, hdec⟩
    · rw [heq]
      exact ⟨hWF, hpos⟩
    · rw [heq]
      exact ⟨WFMat_applyAugE_any _ _ _ hWF,
        fun u v => applyAugE_nonneg hWF (pathEdges_props hnd hlt)
          (pathEdges_pairwise hnd) (by omega) hle hpos u v⟩
  have hbase : WFMat (copyTable c, (0:Int)).1 c.length ∧
      ∀ u v, 0 ≤ getE (copyTable c, (0:Int)).1 u v := by
    constructor
    · show WFMat (copyTable c) c.length
      rw [hcc]
      exact hsq
    · intro u v
      show 0 ≤ getE (copyTable c) u v
      rw [hcc]
      exact hnn' u v
  have hall := fun k => iterate_inv (s := s) (t := t) hstep k _ hbase
  refine ⟨fun k u v => (hall k).2 u v, ?_⟩
  have hek : edmonds_karp c s t = (ekStepFn c.length s t)^[ekFuel c s] (copyTable c, 0) := by
    show ekLoop c.length s t (ekFuel c s) (copyTable c) 0 = _
    rw [ekLoop_eq_iterate]
  rw [hek]
  exact (hall _).2

/-- C10 (witness): non-negativity of the final residual on the
scenario-1 network. -/
theorem residual_nonneg_invariant_witness :
    WFMat scenario1Capacity (List.length scenario1Capacity) ∧
    (∀ u v, 0 ≤ getE (edmonds_karp scenario1Capacity 0 4).1 u v) :=
  ⟨⟨by decide, by decide⟩,
    (residual_nonneg_invariant scenario1Capacity 0 4 ⟨by decide, by decide⟩ (by decide)).2⟩
